import Mathlib

/-!
Verification of the process-identity, registry-enumeration, CPU-accounting,
descendant-resolution and multi-process-wait core of psutil 1.3.0
(src/psutil/__init__.py), against a shallow embedding in Lean.

Modelling conventions:
* Machine floats (creation times, CPU times, timeouts) are modelled as
  rationals; Python's round(x, 1) is modelled by rounding x*10 to an
  integer and dividing by 10.
* The platform backend (_psplatform) is external to the repository; it is
  modelled as a World: a finite association list from pid to an Entry.
  An absent pid models the backend raising NoSuchProcess; a .denied entry
  models the backend refusing handle construction with AccessDenied; an
  .ok entry carries the process creation time (none when reading it is
  access-denied) and parent pid.
* Exceptions are modelled with Except; a caught exception is a handled
  Except branch; an uncaught exception propagates as an .error value.
-/

namespace Psutil

/-- Python's round(x, 1) for the one-decimal rounding used by the CPU
percentage functions (tie-breaking differences between the two rounding
modes are irrelevant to the claims, which never hit exact ties). -/
def round1 (x : ℚ) : ℚ := ((round (x * 10) : ℤ) : ℚ) / 10

/-! ## The platform backend world -/

/-- Exceptions of the psutil error taxonomy relevant to the core. -/
inductive PErr where
  | noSuchProcess
  | accessDenied
  deriving DecidableEq, Repr

/-- What the backend knows about one live pid: either handle construction is
access-denied, or a record with the creation time (none when reading that
single field is access-denied) and the parent pid. -/
inductive Entry where
  | denied
  | ok (createTime : Option ℚ) (ppid : ℕ)
  deriving DecidableEq, Repr

/-- The backend state: the finite set of live pids with their records.
Absence of a pid models the backend raising NoSuchProcess for it. -/
structure World where
  procs : List (ℕ × Entry)
  deriving DecidableEq, Repr

/-- The live pid list, as returned by get_pids(). -/
def World.pids (w : World) : List ℕ := w.procs.map (fun e => e.1)

/-- Backend lookup of one pid. -/
def World.find (w : World) (pid : ℕ) : Option Entry :=
  (w.procs.find? (fun e => e.1 == pid)).map (fun e => e.2)

/-- Well-formed backend state: pids are unique. -/
def World.wf (w : World) : Prop := w.pids.Nodup

/-- The creation time the backend reports for a pid, if any. -/
def World.ctOf (w : World) (pid : ℕ) : Option ℚ :=
  match w.find pid with
  | some (.ok ct _) => ct
  | _ => none

/-- The parent pid the backend reports for a pid, if any. -/
def World.ppidOf (w : World) (pid : ℕ) : Option ℕ :=
  match w.find pid with
  | some (.ok _ pp) => some pp
  | _ => none

/-- A world with no access-denied entries: every live pid is constructible. -/
def World.noDenied (w : World) : Prop :=
  ∀ e ∈ w.procs, e.2 ≠ Entry.denied

/-! ## Process handles (class Process) -/

/-- A Process handle: pid (immutable), the creation time cached by __init__
(none when AccessDenied was swallowed there), and the monotone _gone flag.
The per-handle CPU accounting snapshots (_last_sys_cpu_times,
_last_proc_cpu_times) are independent of identity and are modelled
separately as ProcCpuState. -/
structure Process where
  pid : ℕ
  createTime : Option ℚ
  gone : Bool
  deriving DecidableEq, Repr

/-- Process.__init__ for a given pid against the current backend state:
fails with NoSuchProcess when the pid is not live, with AccessDenied when
the platform refuses handle construction, and otherwise caches the creation
time (leaving it unset when only that field is access-denied). -/
def Process.construct (w : World) (pid : ℕ) : Except PErr Process :=
  match w.find pid with
  | none => .error .noSuchProcess
  | some .denied => .error .accessDenied
  | some (.ok ct _) => .ok { pid := pid, createTime := ct, gone := false }

/-- Process.__eq__ between two handles: the (pid, cached create_time) pairs. -/
def procEq (p q : Process) : Bool :=
  p.pid == q.pid && p.createTime == q.createTime

/-- An arbitrary Python value as seen by Process.__eq__: either another
Process handle or anything else. -/
inductive PyVal where
  | proc (p : Process)
  | nonProc
  deriving DecidableEq, Repr

/-- Process.__eq__ against an arbitrary value: non-Process values are never
equal; Process handles compare by (pid, cached create_time). -/
def procEqVal (p : Process) (v : PyVal) : Bool :=
  match v with
  | .proc q => procEq p q
  | .nonProc => false

/-- Process.__hash__: the pid. -/
def procHash (p : Process) : ℕ := p.pid

/-- Process.is_running(): false immediately once _gone is set; otherwise
construct a fresh handle for the same pid and compare identity. A
NoSuchProcess from the fresh construction is caught and sets _gone; an
AccessDenied propagates. Returns the (possibly updated) handle and the
boolean answer. -/
def isRunning (w : World) (p : Process) : Except PErr (Process × Bool) :=
  if p.gone then .ok (p, false)
  else
    match Process.construct w p.pid with
    | .ok fresh => .ok (p, procEq p fresh)
    | .error .noSuchProcess => .ok ({ p with gone := true }, false)
    | .error .accessDenied => .error .accessDenied

/-- Outcome of os.kill on POSIX, as reported by the OS. -/
inductive KillRes where
  | delivered
  | esrch
  | eperm
  deriving DecidableEq, Repr

/-- Process.send_signal on POSIX (with its _assert_pid_not_reused guard):
first confirm identity via is_running, raising NoSuchProcess when it fails;
then deliver the signal, translating ESRCH to NoSuchProcess (setting _gone)
and EPERM to AccessDenied. Returns the updated handle and the outcome. -/
def sendSignal (w : World) (kr : KillRes) (p : Process) : Process × Except PErr Unit :=
  match isRunning w p with
  | .error e => (p, .error e)
  | .ok (p', false) => (p', .error .noSuchProcess)
  | .ok (p', true) =>
    match kr with
    | .delivered => (p', .ok ())
    | .esrch => ({ p' with gone := true }, .error .noSuchProcess)
    | .eperm => (p', .error .accessDenied)

/-! ## The registry cache and process_iter -/

/-- The module-wide _pmap registry: pid to cached handle. -/
abbrev Registry := List (ℕ × Process)

/-- The registry's key list. -/
def rKeys (r : Registry) : List ℕ := r.map (fun e => e.1)

/-- Registry lookup (_pmap.get). -/
def rLookup (r : Registry) (pid : ℕ) : Option Process :=
  (r.find? (fun e => e.1 == pid)).map (fun e => e.2)

/-- Dictionary assignment _pmap[pid] = p. -/
def rInsert (r : Registry) (pid : ℕ) (p : Process) : Registry :=
  (pid, p) :: r.filter (fun e => e.1 != pid)

/-- Dictionary removal _pmap.pop(pid, None). -/
def rRemove (r : Registry) (pid : ℕ) : Registry :=
  r.filter (fun e => e.1 != pid)

/-- One iteration of the process_iter loop body for a (pid, proc) pair drawn
from the sorted snapshot, against probe world w. For a new pid (proc is
None): yield add(pid); a NoSuchProcess evicts and skips; an AccessDenied
makes the except clause yield the loop variable, which is Python's None.
For a cached handle: is_running decides between yielding it and replacing
it via add(pid); a NoSuchProcess (from is_running's re-resolution, then
again from add) evicts and skips; an AccessDenied (propagating out of
is_running from the fresh construction) yields the stale cached handle.
Returns the yielded elements (empty on skip) and the updated registry. -/
def iterStep (w : World) (pid : ℕ) (optProc : Option Process) (r : Registry) :
    List (Option Process) × Registry :=
  match optProc with
  | none =>
    match Process.construct w pid with
    | .ok proc => ([some proc], rInsert r pid proc)
    | .error .noSuchProcess => ([], rRemove r pid)
    | .error .accessDenied => ([none], r)
  | some proc =>
    if proc.gone then
      match Process.construct w pid with
      | .ok fresh => ([some fresh], rInsert r pid fresh)
      | .error .noSuchProcess => ([], rRemove r pid)
      | .error .accessDenied => ([some proc], r)
    else
      match Process.construct w pid with
      | .ok fresh =>
        if procEq proc fresh then ([some proc], r)
        else ([some fresh], rInsert r pid fresh)
      | .error .noSuchProcess => ([], rRemove r pid)
      | .error .accessDenied => ([some proc], r)

/-- The whole for-loop of process_iter over the sorted snapshot. -/
def iterLoop (w : World) : List (ℕ × Option Process) → Registry →
    List (Option Process) × Registry
  | [], r => ([], r)
  | (pid, op) :: rest, r =>
    let s := iterStep w pid op r
    let t := iterLoop w rest s.2
    (s.1 ++ t.1, t.2)

/-- The elements one loop iteration yields; they do not depend on the
registry state (lemma iterStep_fst). -/
def stepYield (w : World) (e : ℕ × Option Process) : List (Option Process) :=
  (iterStep w e.1 e.2 []).1

/-- Ascending-pid comparison used to model Python's sorted() over the
(pid, proc) snapshot (pids are unique, so only the pid matters). -/
def entryLe (a b : ℕ × Option Process) : Prop := a.1 ≤ b.1

instance : DecidableRel entryLe := fun a b => Nat.decLe a.1 b.1

instance : IsTotal (ℕ × Option Process) entryLe := ⟨fun a b => Nat.le_total a.1 b.1⟩

instance : IsTrans (ℕ × Option Process) entryLe := ⟨fun _ _ _ h₁ h₂ => Nat.le_trans h₁ h₂⟩

/-- process_iter against a pid-snapshot world w₀ (supplying get_pids) and a
probe world w₁ (supplying the per-pid constructions inside the loop;
passing the same world twice models a system that does not change during
the call). Steps: evict the pids that vanished, then walk the sorted merge
of cached items and (pid, None) pairs for the new pids. Returns the yielded
sequence and the final registry. -/
def processIter (w₀ w₁ : World) (pmap : Registry) :
    List (Option Process) × Registry :=
  let a := w₀.pids
  let pmap1 := pmap.filter (fun e => a.contains e.1)
  let newPids := a.filter (fun pid => !(pmap.any (fun e => e.1 == pid)))
  let entries := pmap1.map (fun e => (e.1, some e.2)) ++
    newPids.map (fun pid => (pid, (none : Option Process)))
  iterLoop w₁ (List.insertionSort entryLe entries) pmap1

/-- The fresh handle construction yields for a live, constructible pid. -/
def freshOf (w : World) (pid : ℕ) : Process := ⟨pid, w.ctOf pid, false⟩

/-! ## get_children: the descendant resolver -/

/-- The handles one process_iter call yields, as consumed by get_children
(over the constructible worlds considered here the enumeration yields one
fresh handle per live pid; see processIter_char). -/
def iterProcs (w : World) (r : Registry) : List Process :=
  ((processIter w w r).1).filterMap id

/-- get_children's adjacency pass: for p in process_iter(), append p to
table[p.ppid]; reading p.ppid can fail with a caught NoSuchProcess, which
skips p. Modelled as the (ppid, child) edge list. -/
def buildTable (w : World) (ps : List Process) : List (ℕ × Process) :=
  ps.filterMap (fun p => (w.ppidOf p.pid).map (fun pp => (pp, p)))

/-- The bucket table[pid], in enumeration order. -/
def tableGet (tbl : List (ℕ × Process)) (pid : ℕ) : List Process :=
  (tbl.filter (fun e => e.1 == pid)).map (fun e => e.2)

/-- The creation time visible through a handle's create_time cached
property: the value cached at construction, or a backend re-fetch when the
cache is unset. -/
def ctValue (w : World) (p : Process) : Option ℚ :=
  match p.createTime with
  | some c => some c
  | none => w.ctOf p.pid

/-- The reuse filter self.create_time <= child.create_time of get_children;
none models the exception path (the caught NoSuchProcess) that skips the
child. -/
def intime (w : World) (root c : Process) : Option Bool :=
  match ctValue w root, ctValue w c with
  | some rc, some cc => some (decide (rc ≤ cc))
  | _, _ => none

/-- The filter as a Bool: a child is kept only when the comparison
succeeded and came out true. -/
def intimeB (w : World) (root c : Process) : Bool :=
  (intime w root c).getD false

/-- Non-recursive get_children: the enumerated processes whose current ppid
is the target and which pass the creation-time reuse filter. -/
def getChildrenNonrec (w : World) (r : Registry) (root : Process) : List Process :=
  (iterProcs w r).filter
    (fun p => (w.ppidOf p.pid == some root.pid) && intimeB w root p)

/-- The breadth-first worklist loop of recursive get_children. The growing
checkpids list is modelled by its unprocessed suffix, pending, together
with allowed, the live pids not yet placed on checkpids; Python's test
child.pid not in checkpids is child.pid ∈ allowed, equivalent because
every table child is an enumerated live process. Each step appends the
current pid's intime-filtered bucket to the result and queues the newly
seen child pids. -/
def bfsGo (w : World) (root : Process) (tbl : List (ℕ × Process)) :
    List ℕ → List ℕ → List Process
  | [], _ => []
  | pid :: pending, allowed =>
    let kids := (tableGet tbl pid).filter (fun c => intimeB w root c)
    let fresh := (kids.map (fun c => c.pid)).filter (fun k => allowed.contains k)
    kids ++ bfsGo w root tbl (pending ++ fresh)
      (allowed.filter (fun x => !fresh.contains x))
termination_by p a => (a.length, p.length)
decreasing_by
  simp_wf
  by_cases hex : ∃ k ∈ (List.filter (fun c => intimeB w root c) (tableGet tbl pid)).map
      (fun c => c.pid), k ∈ allowed
  · apply Prod.Lex.left
    rw [List.length_filter_lt_length_iff_exists]
    rcases hex with ⟨k, hk, hka⟩
    refine ⟨k, hka, ?_⟩
    have hkf : k ∈ List.filter (fun k => decide (k ∈ allowed))
        ((List.filter (fun c => intimeB w root c) (tableGet tbl pid)).map
          (fun c => c.pid)) :=
      List.mem_filter.2 ⟨hk, by simp [hka]⟩
    simp [hkf]
  · push_neg at hex
    have h2 : List.filter (fun k => decide (k ∈ allowed))
        ((List.filter (fun c => intimeB w root c) (tableGet tbl pid)).map
          (fun c => c.pid)) = [] := by
      rw [List.filter_eq_nil_iff]
      intro x hx
      simp only [decide_eq_true_eq]
      exact hex x hx
    rw [h2]
    have h1 : List.filter (fun x => !decide (x ∈ ([] : List ℕ))) allowed = allowed := by
      simp
    rw [h1]
    apply Prod.Lex.right
    simp

/-- Recursive get_children: build the adjacency table from one enumeration,
then run the breadth-first traversal from the target's pid, with every
other live pid initially unvisited. -/
def getChildrenRec (w : World) (r : Registry) (root : Process) : List Process :=
  bfsGo w root (buildTable w (iterProcs w r)) [root.pid]
    (((iterProcs w r).map (fun p => p.pid)).filter (fun x => x != root.pid))

/-- Parent-edge reachability from the pid top through the enumerated
handles ps: the chains the breadth-first traversal can actually follow. -/
inductive Reach (w : World) (ps : List Process) (top : ℕ) : Process → Prop where
  | base (q : Process) (hq : q ∈ ps) (hp : w.ppidOf q.pid = some top) :
      Reach w ps top q
  | step (q r : Process) (hq : Reach w ps top q) (hr : r ∈ ps)
      (hp : w.ppidOf r.pid = some q.pid) : Reach w ps top r

/-- The recursive subtree below the pid x, through the enumerated handles:
processes whose parent chain reaches x. -/
inductive Desc (w : World) (ps : List Process) (x : ℕ) : Process → Prop where
  | base (p : Process) (hp : p ∈ ps) (he : w.ppidOf p.pid = some x) :
      Desc w ps x p
  | step (q p : Process) (hq : Desc w ps x q) (hp : p ∈ ps)
      (he : w.ppidOf p.pid = some q.pid) : Desc w ps x p

/-! ## CPU utilization accounting -/

/-- A system CPU-times sample (one cpu_times() namedtuple): the idle field
and the remaining per-mode fields (their order is immaterial to the
accounting, which only sums them and subtracts idle). -/
structure CpuT where
  idle : ℚ
  rest : List ℚ
  deriving DecidableEq, Repr

/-- sum(t): the total of all time fields. -/
def CpuT.total (t : CpuT) : ℚ := t.idle + t.rest.sum

/-- The fields in the order t._fields iterates them (order immaterial). -/
def CpuT.fields (t : CpuT) : List ℚ := t.idle :: t.rest

/-- Python's ZeroDivisionError, for the one accounting path that does not
catch it. -/
inductive ZDiv where
  | zeroDivisionError
  deriving DecidableEq, Repr

/-- cpu_percent's inner calculate(t1, t2): busy is total minus idle; if
busy did not increase, return 0.0; otherwise (busy_delta / all_delta) * 100
rounded to one decimal — the division by zero being raised, uncaught, when
the total did not change while busy increased. -/
def calculate (t1 t2 : CpuT) : Except ZDiv ℚ :=
  if t2.total - t2.idle ≤ t1.total - t1.idle then .ok 0
  else if t2.total - t1.total = 0 then .error .zeroDivisionError
  else .ok (round1
    (((t2.total - t2.idle) - (t1.total - t1.idle)) / (t2.total - t1.total) * 100))

/-- Non-blocking system-wide cpu_percent: compare the fresh sample against
the stored baseline and store the fresh sample (the baseline always exists
because the module stores one at import time, so there is no first-call
branch for this subject). -/
def cpuPercentNB (last t2 : CpuT) : Except ZDiv ℚ × CpuT :=
  (calculate last t2, t2)

/-- One field of cpu_times_percent's calculate: the per-field share of the
elapsed total, with the division by zero caught to 0.0, rounded to one
decimal, and clamped into [0, 100] on Windows only. -/
def calcField (windows : Bool) (allDelta fieldDelta : ℚ) : ℚ :=
  let fp0 : ℚ := if allDelta = 0 then 0 else 100 * fieldDelta / allDelta
  let fp := round1 fp0
  if windows then
    if 100 < fp then 100
    else if fp < 0 then 0
    else fp
  else fp

/-- cpu_times_percent's calculate: every field's percentage of the elapsed
total time. -/
def calcFields (windows : Bool) (t1 t2 : CpuT) : List ℚ :=
  (t1.fields.zip t2.fields).map
    (fun f => calcField windows (t2.total - t1.total) (f.2 - f.1))

/-- Process CPU times (user, system), as returned by get_cpu_times(). -/
structure PTimes where
  user : ℚ
  system : ℚ
  deriving DecidableEq, Repr

/-- The per-handle rolling snapshots _last_sys_cpu_times and
_last_proc_cpu_times used by non-blocking get_cpu_percent. -/
structure ProcCpuState where
  lastSys : Option ℚ
  lastProc : Option PTimes
  deriving DecidableEq, Repr

/-- Non-blocking Process.get_cpu_percent: st2 is the fresh sum of system
CPU times, pt2 the fresh process CPU times. With no stored baseline, store
one and return 0.0 without computing a ratio. Otherwise form the process
and system deltas, store the fresh samples, divide (the ZeroDivisionError
on a zero system delta is caught, returning 0.0), scale by the cached
logical-core count, cap above at 100 off POSIX, and round to one decimal. -/
def getCpuPercentNB (posix : Bool) (ncpus : ℕ) (st2 : ℚ) (pt2 : PTimes)
    (s : ProcCpuState) : ℚ × ProcCpuState :=
  match s.lastSys, s.lastProc with
  | some st1, some pt1 =>
    let deltaProc := (pt2.user - pt1.user) + (pt2.system - pt1.system)
    let deltaTime := st2 - st1
    if deltaTime = 0 then (0, ⟨some st2, some pt2⟩)
    else
      let overallPercent := deltaProc / deltaTime * 100
      let singleCpuPercent := overallPercent * ncpus
      if posix = false ∧ 100 < singleCpuPercent then (100, ⟨some st2, some pt2⟩)
      else (round1 singleCpuPercent, ⟨some st2, some pt2⟩)
  | _, _ => (0, ⟨some st2, some pt2⟩)

/-! ## wait_procs: the bounded multi-process wait -/

/-- Outcome of one backend process_wait attempt within its timeout. -/
inductive WaitOutcome where
  | timedOut
  | exited (retcode : Option ℤ)
  deriving DecidableEq, Repr

/-- The errors that can escape wait_procs: the ValueError Process.wait
raises on a negative timeout, and an AccessDenied propagating out of an
is_running identity check. -/
inductive WErr where
  | valueError
  | accessDenied
  deriving DecidableEq, Repr

/-- The environment wait_procs runs against: the backend world (consulted
by the is_running identity checks) and the backend wait outcome for a pid
under a given timeout. -/
structure WaitEnv where
  world : World
  waitFor : ℕ → ℚ → WaitOutcome

/-- Process.wait: rejects a negative timeout with ValueError, otherwise
asks the backend. -/
def procWait (env : WaitEnv) (pid : ℕ) (tmo : ℚ) : Except WErr WaitOutcome :=
  if ¬ tmo ≥ 0 then .error .valueError else .ok (env.waitFor pid tmo)

/-- The mutable state the local assert_gone touches: the gone set with each
handle's recorded retcode, and the log of synchronous callback calls. -/
structure WPState where
  gone : List (Process × Option ℤ)
  cbLog : List Process
  deriving DecidableEq, Repr

/-- wait_procs' local assert_gone(proc, timeout): a TimeoutExpired from the
bounded wait is swallowed; on a normal return the handle moves to gone
(with the retcode recorded and the callback invoked) iff the exit code is
non-null or a follow-up is_running() check reports false — the or is
short-circuited, so is_running runs only for a null exit code. -/
def assertGone (env : WaitEnv) (p : Process) (tmo : ℚ) (s : WPState) :
    Except WErr WPState :=
  match procWait env p.pid tmo with
  | .error e => .error e
  | .ok .timedOut => .ok s
  | .ok (.exited rc) =>
    if rc.isSome then .ok ⟨s.gone ++ [(p, rc)], s.cbLog ++ [p]⟩
    else
      match isRunning env.world p with
      | .error _ => .error .accessDenied
      | .ok (p', running) =>
        if running then .ok s
        else .ok ⟨s.gone ++ [(p', rc)], s.cbLog ++ [p']⟩

/-- The identity-relevant key of a handle: the (pid, creation time) pair
that __eq__ compares and the set bookkeeping relies on. -/
def procKey (p : Process) : ℕ × Option ℚ := (p.pid, p.createTime)

/-- Membership of a Python set of handles (hash by pid, equality by
__eq__). -/
def memProc (l : List Process) (p : Process) : Bool :=
  l.any (fun q => procEq q p)

/-- set(procs): deduplicate by handle equality, keeping first occurrences. -/
def dedupProcs (l : List Process) : List Process :=
  l.foldl (fun acc p => if memProc acc p then acc else acc ++ [p]) []

/-- The set difference alive - gone of the loop epilogues. -/
def aliveMinusGone (alive : List Process) (gone : List (Process × Option ℤ)) :
    List Process :=
  alive.filter (fun p => !(gone.any (fun g => procEq g.1 p)))

/-- The per-handle bounded timeout of one sweep iteration:
1.0 / (len(alive) - len(gone)), or 1.0 on the caught ZeroDivisionError.
The subtraction is Python int subtraction, so the denominator — and with
it the timeout — can be negative. -/
def maxTimeout (aliveLen goneLen : ℕ) : ℚ :=
  if ((aliveLen : ℤ) - (goneLen : ℤ)) = 0 then 1
  else 1 / ((((aliveLen : ℤ) - (goneLen : ℤ)) : ℤ) : ℚ)

/-- One sweep of the main loop with no deadline (timeout is None): each
still-alive handle gets a wait bounded by max_timeout. -/
def sweepNone (env : WaitEnv) (aliveLen : ℕ) :
    List Process → WPState → Except WErr WPState
  | [], s => .ok s
  | p :: rest, s =>
    match assertGone env p (maxTimeout aliveLen s.gone.length) s with
    | .error e => .error e
    | .ok s2 => sweepNone env aliveLen rest s2

/-- One sweep of the main loop under a deadline: the per-handle timeout is
min(deadline - timer(), max_timeout); when it drops to or below zero the
sweep breaks. Returns the state, the next timer index, and the last
computed timeout, which the while condition re-checks. -/
def sweepTimed (env : WaitEnv) (timer : ℕ → ℚ) (deadline : ℚ) (aliveLen : ℕ) :
    List Process → WPState → ℕ → ℚ → Except WErr (WPState × ℕ × ℚ)
  | [], s, ti, tmo => .ok (s, ti, tmo)
  | p :: rest, s, ti, _ =>
    if min (deadline - timer ti) (maxTimeout aliveLen s.gone.length) ≤ 0 then
      .ok (s, ti + 1, min (deadline - timer ti) (maxTimeout aliveLen s.gone.length))
    else
      match assertGone env p
          (min (deadline - timer ti) (maxTimeout aliveLen s.gone.length)) s with
      | .error e => .error e
      | .ok s2 =>
        sweepTimed env timer deadline aliveLen rest s2 (ti + 1)
          (min (deadline - timer ti) (maxTimeout aliveLen s.gone.length))

/-- The while loop of wait_procs, fuel-bounded: the source loop is
unbounded when no deadline is given, and the fuel only truncates that
unbounded spin — it never changes a result that is reached. The timeout
variable is threaded exactly as in the source, so a timed sweep's last
computed per-handle timeout is what the loop condition re-checks. -/
def wpLoop (env : WaitEnv) (timer : ℕ → ℚ) (deadline : ℚ) :
    ℕ → Option ℚ → List Process → WPState → ℕ →
    Except WErr (List Process × WPState × ℕ)
  | 0, _, alive, s, ti => .ok (alive, s, ti)
  | fuel + 1, tmo, alive, s, ti =>
    if alive.isEmpty then .ok (alive, s, ti)
    else
      match tmo with
      | some t =>
        if t ≤ 0 then .ok (alive, s, ti)
        else
          match sweepTimed env timer deadline alive.length alive s ti t with
          | .error e => .error e
          | .ok (s2, ti2, t2) =>
            wpLoop env timer deadline fuel (some t2)
              (aliveMinusGone alive s2.gone) s2 ti2
      | none =>
        match sweepNone env alive.length alive s with
        | .error e => .error e
        | .ok s2 =>
          wpLoop env timer deadline fuel none (aliveMinusGone alive s2.gone) s2 ti

/-- The final best-effort zero-timeout sweep over the survivors. -/
def sweepZero (env : WaitEnv) : List Process → WPState → Except WErr WPState
  | [], s => .ok s
  | p :: rest, s =>
    match assertGone env p 0 s with
    | .error e => .error e
    | .ok s2 => sweepZero env rest s2

/-- wait_procs(procs, timeout, callback): validate the timeout, collapse
the input into the alive set, run the (fuel-bounded) main loop, then one
final zero-timeout sweep over whatever remains alive, and return the gone
list with recorded retcodes, the remaining alive list, and the callback
log. -/
def waitProcs (env : WaitEnv) (timer : ℕ → ℚ) (procs : List Process)
    (timeout : Option ℚ) (fuel : ℕ) :
    Except WErr (List (Process × Option ℤ) × List Process × List Process) :=
  if timeout.isSome ∧ ¬ (timeout.getD 0 ≥ 0) then .error .valueError
  else
    match wpLoop env timer (timer 0 + timeout.getD 0) fuel timeout
        (dedupProcs procs) ⟨[], []⟩ 1 with
    | .error e => .error e
    | .ok (alive, s, _) =>
      if alive.isEmpty then .ok (s.gone, alive, s.cbLog)
      else
        match sweepZero env alive s with
        | .error e => .error e
        | .ok s2 => .ok (s2.gone, aliveMinusGone alive s2.gone, s2.cbLog)

/-- The identity keys held by a wait_procs state: the gone keys followed
by the alive keys. The runs below keep this a permutation of the input
set's keys. -/
def wpKeys (s : WPState) (alive : List Process) : List (ℕ × Option ℚ) :=
  s.gone.map (fun g => procKey g.1) ++ alive.map procKey

/-- The environment of the C9 failing run: an empty backend world (never
consulted, since every exit code is known) in which pids 10 and 20 exit
with code 0 on any wait while pid 30 always times out. -/
def envC9 : WaitEnv :=
  ⟨⟨[]⟩, fun pid _ => if pid == 30 then .timedOut else .exited (some 0)⟩

/-- The three distinct input handles of the C9 failing run. -/
def procsC9 : List Process :=
  [⟨10, some 1, false⟩, ⟨20, some 1, false⟩, ⟨30, some 1, false⟩]

theorem round1_mono {x y : ℚ} (h : x ≤ y) : round1 x ≤ round1 y := by
  unfold round1
  have h1 : round (x * 10) ≤ round (y * 10) := by
    rw [round_eq, round_eq]
    exact Int.floor_le_floor (by linarith)
  have h2 : ((round (x * 10) : ℤ) : ℚ) ≤ ((round (y * 10) : ℤ) : ℚ) := by
    exact_mod_cast h1
  linarith

theorem round1_nonneg {x : ℚ} (h : 0 ≤ x) : 0 ≤ round1 x := by
  have h0 : round1 0 ≤ round1 x := round1_mono h
  have : round1 0 = 0 := by
    unfold round1
    norm_num
  linarith

theorem round1_le_natMul {x : ℚ} {n : ℕ} (h : x ≤ 100 * n) : round1 x ≤ 100 * n := by
  have h1 : round1 x ≤ round1 (100 * n) := round1_mono h
  have h2 : round1 (100 * (n : ℚ)) = 100 * n := by
    unfold round1
    have : (100 : ℚ) * n * 10 = ((1000 * n : ℤ) : ℚ) := by push_cast; ring
    rw [this, round_intCast]
    push_cast
    ring
  linarith

theorem round1_le_hundred {x : ℚ} (h : x ≤ 100) : round1 x ≤ 100 := by
  have h1 : round1 x ≤ round1 100 := round1_mono h
  have h2 : round1 (100 : ℚ) = 100 := by
    unfold round1
    have : (100 : ℚ) * 10 = ((1000 : ℤ) : ℚ) := by norm_num
    rw [this, round_intCast]
    norm_num
  linarith

/-! ## Claim C1: handle equality -/

/-- C1: Process.__eq__ holds between two handles iff their pids and cached
creation times agree; a non-Process value never compares equal; and two
constructions for the same pid over an unchanged backend record yield
handles that compare equal. -/
theorem C1_process_equality :
    (∀ p q : Process,
      procEqVal p (.proc q) = true ↔ p.pid = q.pid ∧ p.createTime = q.createTime)
    ∧ (∀ p : Process, procEqVal p .nonProc = false)
    ∧ (∀ (w₁ w₂ : World) (pid : ℕ) (ct : Option ℚ) (pp : ℕ),
        w₁.find pid = some (.ok ct pp) → w₂.find pid = some (.ok ct pp) →
        ∃ p q, Process.construct w₁ pid = .ok p ∧ Process.construct w₂ pid = .ok q ∧
          procEq p q = true) := by
  refine ⟨?_, ?_, ?_⟩
  · intro p q
    simp [procEqVal, procEq]
  · intro p
    rfl
  · intro w₁ w₂ pid ct pp h₁ h₂
    refine ⟨⟨pid, ct, false⟩, ⟨pid, ct, false⟩, ?_, ?_, ?_⟩
    · unfold Process.construct
      rw [h₁]
    · unfold Process.construct
      rw [h₂]
    · simp [procEq]

/-- Witness for C1 at a concrete world: pid 7 with creation time 3. -/
theorem C1_process_equality_witness :
    ∃ p q, Process.construct ⟨[(7, .ok (some 3) 1)]⟩ 7 = .ok p ∧
      Process.construct ⟨[(7, .ok (some 3) 1)]⟩ 7 = .ok q ∧ procEq p q = true :=
  C1_process_equality.2.2 ⟨[(7, .ok (some 3) 1)]⟩ ⟨[(7, .ok (some 3) 1)]⟩ 7 (some 3) 1
    (by decide) (by decide)

/-! ## Claim C2: is_running and the gone flag -/

/-- C2 counterexample: a handle whose pid has been reused by a live process
(different creation time) gets a false answer from is_running, yet its gone
flag is left unset — refuting the claim that every false-returning
is_running call flips gone to true. -/
theorem C2_counterexample :
    isRunning ⟨[(1, .ok (some 5) 0)]⟩ ⟨1, some 3, false⟩ =
      .ok (⟨1, some 3, false⟩, false) ∧
    (⟨1, some 3, false⟩ : Process).gone = false := by
  constructor
  · simp [isRunning, Process.construct, World.find, procEq]
  · rfl

/-- C2 (amended): once gone is set, is_running returns false with the handle
unchanged in every world (so permanently, regardless of pid reassignment);
otherwise it re-resolves a fresh handle and compares identity; a false
answer arising from NoSuchProcess sets gone, while a false answer arising
from identity mismatch leaves the handle (and its gone flag) unchanged; and
neither is_running nor send_signal ever resets gone to false. -/
theorem C2_is_running_gone :
    (∀ (w : World) (p : Process), p.gone = true → isRunning w p = .ok (p, false))
    ∧ (∀ (w : World) (p : Process) (fresh : Process), p.gone = false →
        Process.construct w p.pid = .ok fresh →
        isRunning w p = .ok (p, procEq p fresh))
    ∧ (∀ (w : World) (p : Process), p.gone = false →
        Process.construct w p.pid = .error .noSuchProcess →
        isRunning w p = .ok ({ p with gone := true }, false))
    ∧ (∀ (w : World) (p : Process) (p' : Process) (b : Bool),
        isRunning w p = .ok (p', b) → p.gone = true → p'.gone = true)
    ∧ (∀ (w : World) (kr : KillRes) (p : Process),
        p.gone = true → ((sendSignal w kr p).1).gone = true) := by
  refine ⟨?_, ?_, ?_, ?_, ?_⟩
  · intro w p h
    simp [isRunning, h]
  · intro w p fresh h hc
    simp [isRunning, h, hc]
  · intro w p h hc
    simp [isRunning, h, hc]
  · intro w p p' b h hg
    simp [isRunning, hg] at h
    rw [← h.1]
    exact hg
  · intro w kr p hg
    have h : isRunning w p = .ok (p, false) := by simp [isRunning, hg]
    simp [sendSignal, h]
    exact hg

/-- Witness for C2 (amended): concrete checks of the gone-set branch and the
identity-mismatch branch. -/
theorem C2_is_running_gone_witness :
    isRunning ⟨[(1, .ok (some 5) 0)]⟩ ⟨1, some 5, true⟩ =
      .ok (⟨1, some 5, true⟩, false) ∧
    isRunning ⟨[(1, .ok (some 5) 0)]⟩ ⟨1, some 5, false⟩ =
      .ok (⟨1, some 5, false⟩, procEq ⟨1, some 5, false⟩ ⟨1, some 5, false⟩) := by
  constructor
  · exact C2_is_running_gone.1 ⟨[(1, .ok (some 5) 0)]⟩ ⟨1, some 5, true⟩ rfl
  · exact C2_is_running_gone.2.1 ⟨[(1, .ok (some 5) 0)]⟩ ⟨1, some 5, false⟩
      ⟨1, some 5, false⟩ rfl (by simp [Process.construct, World.find])

/-! ## Claim C10: hash/equality coherence -/

/-- C10: hash(p) is exactly p.pid, hence equal handles (equal pid and cached
creation time) have equal hashes, and two handles for a reused pid with
different creation times collide in hash while comparing unequal. -/
theorem C10_hash_pid :
    (∀ p : Process, procHash p = p.pid)
    ∧ (∀ p q : Process, procEq p q = true → procHash p = procHash q)
    ∧ (procEq ⟨1, some 0, false⟩ ⟨1, some 1, false⟩ = false ∧
       procHash ⟨1, some 0, false⟩ = procHash ⟨1, some 1, false⟩) := by
  refine ⟨fun p => rfl, ?_, by decide, rfl⟩
  intro p q h
  simp [procEq] at h
  exact h.1

/-- Witness for C10: applying the equality-implies-equal-hash part at two
concrete equal handles. -/
theorem C10_hash_pid_witness :
    procHash ⟨4, some 2, false⟩ = procHash ⟨4, some 2, true⟩ :=
  C10_hash_pid.2.1 ⟨4, some 2, false⟩ ⟨4, some 2, true⟩ (by decide)

theorem rLookup_rInsert_self (r : Registry) (pid : ℕ) (p : Process) :
    rLookup (rInsert r pid p) pid = some p := by
  simp [rLookup, rInsert, List.find?]

theorem find?_filter_of_imp {α : Type} (l : List α) (p q : α → Bool)
    (h : ∀ x, p x = true → q x = true) :
    (l.filter q).find? p = l.find? p := by
  induction l with
  | nil => rfl
  | cons a t ih =>
    by_cases hp : p a = true
    · have hq := h a hp
      simp [List.filter, hq, List.find?, hp, ih]
    · simp only [Bool.not_eq_true] at hp
      by_cases hq : q a = true
      · simp [List.filter, hq, List.find?, hp, ih]
      · simp only [Bool.not_eq_true] at hq
        simp [List.filter, hq, List.find?, hp, ih]

theorem rLookup_rInsert_other (r : Registry) (pid pid' : ℕ) (p : Process)
    (h : pid' ≠ pid) : rLookup (rInsert r pid p) pid' = rLookup r pid' := by
  have hne : (pid == pid') = false := by
    simp only [beq_eq_false_iff_ne, ne_eq]
    exact fun hc => h hc.symm
  unfold rLookup rInsert
  rw [List.find?]
  simp only [hne]
  rw [find?_filter_of_imp]
  intro x hx
  simp only [beq_iff_eq] at hx
  simp only [bne_iff_ne, ne_eq, hx]
  exact fun hc => h (hc ▸ rfl)

theorem rLookup_rRemove_self (r : Registry) (pid : ℕ) :
    rLookup (rRemove r pid) pid = none := by
  unfold rLookup rRemove
  have : (r.filter (fun e => e.1 != pid)).find? (fun e => e.1 == pid) = none := by
    rw [List.find?_eq_none]
    intro x hx
    have := List.of_mem_filter hx
    simp only [bne_iff_ne, ne_eq] at this
    simp only [beq_iff_eq]
    exact this
  rw [this]
  rfl

theorem rLookup_rRemove_other (r : Registry) (pid pid' : ℕ) (h : pid' ≠ pid) :
    rLookup (rRemove r pid) pid' = rLookup r pid' := by
  unfold rLookup rRemove
  rw [find?_filter_of_imp]
  intro x hx
  simp only [beq_iff_eq] at hx
  simp only [bne_iff_ne, ne_eq, hx]
  exact fun hc => h (hc ▸ rfl)

theorem mem_rKeys_iff_rLookup (r : Registry) (pid : ℕ) :
    pid ∈ rKeys r ↔ rLookup r pid ≠ none := by
  unfold rKeys rLookup
  constructor
  · intro hmem
    rcases List.mem_map.1 hmem with ⟨e, he, hk⟩
    have : (r.find? (fun x => x.1 == pid)).isSome := by
      rw [List.find?_isSome]
      exact ⟨e, he, by simp [hk]⟩
    intro hc
    rw [Option.map_eq_none'] at hc
    rw [hc] at this
    simp at this
  · intro hne
    have hfind : r.find? (fun e => e.1 == pid) ≠ none := by
      intro hc
      exact hne (by rw [Option.map_eq_none']; exact hc)
    rcases Option.ne_none_iff_exists.1 hfind with ⟨e, he⟩
    have hmem := List.mem_of_find?_eq_some he.symm
    have hk := List.find?_some he.symm
    simp only [beq_iff_eq] at hk
    exact List.mem_map.2 ⟨e, hmem, hk⟩

theorem rKeys_nodup_rInsert (r : Registry) (pid : ℕ) (p : Process)
    (h : (rKeys r).Nodup) : (rKeys (rInsert r pid p)).Nodup := by
  unfold rKeys rInsert
  rw [List.map_cons, List.nodup_cons]
  constructor
  · intro hc
    rcases List.mem_map.1 hc with ⟨e, he, hk⟩
    have := List.of_mem_filter he
    simp only [bne_iff_ne, ne_eq] at this
    exact this hk
  · have hsub : List.Sublist (List.map (fun e => e.1) (r.filter (fun e => e.1 != pid)))
        (List.map (fun e => e.1) r) := (List.filter_sublist r).map _
    exact h.sublist hsub

theorem rKeys_nodup_rRemove (r : Registry) (pid : ℕ)
    (h : (rKeys r).Nodup) : (rKeys (rRemove r pid)).Nodup := by
  unfold rKeys rRemove
  exact h.sublist ((List.filter_sublist r).map _)

theorem rLookup_of_mem (r : Registry) (pid : ℕ) (p : Process)
    (hn : (rKeys r).Nodup) (hm : (pid, p) ∈ r) : rLookup r pid = some p := by
  induction r with
  | nil => cases hm
  | cons e t ih =>
    rw [rKeys, List.map_cons, List.nodup_cons] at hn
    unfold rLookup
    rcases List.mem_cons.1 hm with h | h
    · rw [← h]
      rw [List.find?_cons_of_pos _ (by simp)]
      rfl
    · have hne : (e.1 == pid) = false := by
        simp only [beq_eq_false_iff_ne, ne_eq]
        intro hc
        exact hn.1 (hc ▸ List.mem_map.2 ⟨(pid, p), h, rfl⟩)
      rw [List.find?_cons_of_neg _ (by simp [hne])]
      exact ih hn.2 h

/-- The yields of one iteration do not depend on the registry. -/
theorem iterStep_fst (w : World) (pid : ℕ) (op : Option Process) (r : Registry) :
    (iterStep w pid op r).1 = stepYield w (pid, op) := by
  unfold stepYield iterStep
  rcases op with _ | p
  · rcases h : Process.construct w pid with e | q
    · rcases e <;> simp [h]
    · simp [h]
  · rcases h : Process.construct w pid with e | q
    · rcases e <;> rcases hg : p.gone <;> simp [h, hg]
    · rcases hg : p.gone <;> simp only [h, hg] <;>
        rcases he : procEq p q <;> simp [he]

/-- The loop yields are the concatenation of the per-entry yields: a
failure at one pid never affects what other pids contribute. -/
theorem iterLoop_fst (w : World) (es : List (ℕ × Option Process)) (r : Registry) :
    (iterLoop w es r).1 = es.flatMap (stepYield w) := by
  induction es generalizing r with
  | nil => rfl
  | cons e rest ih =>
    rcases e with ⟨pid, op⟩
    rw [iterLoop, List.flatMap_cons]
    rw [← iterStep_fst w pid op r, ← ih (iterStep w pid op r).2]

theorem find_of_mem_pids (w : World) (pid : ℕ) (h : pid ∈ w.pids) :
    ∃ pr ∈ w.procs, pr.1 = pid ∧ w.find pid = some pr.2 := by
  rcases List.mem_map.1 h with ⟨x, hx, hk⟩
  have hs : (w.procs.find? (fun e => e.1 == pid)).isSome := by
    rw [List.find?_isSome]
    exact ⟨x, hx, by simp [hk]⟩
  rcases Option.isSome_iff_exists.1 hs with ⟨pr, hpr⟩
  have hm := List.mem_of_find?_eq_some hpr
  have hkey := List.find?_some hpr
  simp only [beq_iff_eq] at hkey
  refine ⟨pr, hm, hkey, ?_⟩
  rw [World.find, hpr]
  rfl

theorem construct_ok_char (w : World) (pid : ℕ) (hnd : w.noDenied)
    (hl : pid ∈ w.pids) : Process.construct w pid = .ok (freshOf w pid) := by
  rcases find_of_mem_pids w pid hl with ⟨pr, hm, hkey, he⟩
  rcases hval : pr.2 with _ | ⟨ct, pp⟩
  · exact absurd hval (hnd pr hm)
  · rw [hval] at he
    rw [Process.construct, he, freshOf, World.ctOf, he]

/-- If construction at pid yields the fresh handle, one loop iteration for
that pid yields exactly that handle identity (either the cached handle,
which identity-equality forces to coincide with it, or a replacement). -/
theorem stepYield_ok (w : World) (pid : ℕ) (op : Option Process)
    (hc : Process.construct w pid = .ok (freshOf w pid)) :
    stepYield w (pid, op) = [some (freshOf w pid)] := by
  unfold stepYield iterStep
  rcases op with _ | p
  · simp [hc]
  · rcases hg : p.gone
    · simp only [hg, Bool.false_eq_true, if_false, hc]
      rcases he : procEq p (freshOf w pid)
      · simp [he]
      · have hp : p = freshOf w pid := by
          simp only [procEq, Bool.and_eq_true, beq_iff_eq] at he
          cases p
          cases he
          simp_all [freshOf]
        simp [he, hp]
    · simp [hg, hc]

theorem iterStep_snd_other (w : World) (pid : ℕ) (op : Option Process)
    (r : Registry) (pid' : ℕ) (h : pid' ≠ pid) :
    rLookup (iterStep w pid op r).2 pid' = rLookup r pid' := by
  unfold iterStep
  rcases op with _ | p
  · rcases hc : Process.construct w pid with e | q
    · rcases e <;>
        simp [rLookup_rRemove_other r pid pid' h]
    · simp [rLookup_rInsert_other r pid pid' _ h]
  · rcases hg : p.gone
    · simp only [hg, Bool.false_eq_true, if_false]
      rcases hc : Process.construct w pid with e | q
      · rcases e <;> simp [rLookup_rRemove_other r pid pid' h]
      · rcases he : procEq p q <;>
          simp [he, rLookup_rInsert_other r pid pid' _ h]
    · simp only [hg, if_true]
      rcases hc : Process.construct w pid with e | q
      · rcases e <;> simp [rLookup_rRemove_other r pid pid' h]
      · simp [rLookup_rInsert_other r pid pid' _ h]

theorem iterStep_snd_ok (w : World) (pid : ℕ) (op : Option Process)
    (r : Registry) (hc : Process.construct w pid = .ok (freshOf w pid))
    (hop : ∀ p, op = some p → rLookup r pid = some p) :
    rLookup (iterStep w pid op r).2 pid = some (freshOf w pid) := by
  unfold iterStep
  rcases op with _ | p
  · simp [hc, rLookup_rInsert_self]
  · rcases hg : p.gone
    · simp only [hg, Bool.false_eq_true, if_false, hc]
      rcases he : procEq p (freshOf w pid)
      · simp [he, rLookup_rInsert_self]
      · have hp : p = freshOf w pid := by
          simp only [procEq, Bool.and_eq_true, beq_iff_eq] at he
          cases p
          cases he
          simp_all [freshOf]
        simp only [he, if_true]
        rw [hop p rfl, hp]
    · simp [hg, hc, rLookup_rInsert_self]

theorem iterStep_keys_nodup (w : World) (pid : ℕ) (op : Option Process)
    (r : Registry) (h : (rKeys r).Nodup) :
    (rKeys (iterStep w pid op r).2).Nodup := by
  unfold iterStep
  rcases op with _ | p
  · rcases hc : Process.construct w pid with e | q
    · rcases e <;> simp [rKeys_nodup_rRemove r pid h, h]
    · simp [rKeys_nodup_rInsert r pid _ h]
  · rcases hg : p.gone
    · simp only [hg, Bool.false_eq_true, if_false]
      rcases hc : Process.construct w pid with e | q
      · rcases e <;> simp [rKeys_nodup_rRemove r pid h, h]
      · rcases he : procEq p q <;> simp [he, h, rKeys_nodup_rInsert r pid _ h]
    · simp only [hg, if_true]
      rcases hc : Process.construct w pid with e | q
      · rcases e <;> simp [rKeys_nodup_rRemove r pid h, h]
      · simp [rKeys_nodup_rInsert r pid _ h]

theorem iterLoop_snd_not_mem (w : World) (es : List (ℕ × Option Process))
    (r : Registry) (pid : ℕ) (h : pid ∉ es.map (fun e => e.1)) :
    rLookup (iterLoop w es r).2 pid = rLookup r pid := by
  induction es generalizing r with
  | nil => rfl
  | cons e rest ih =>
    rcases e with ⟨pid0, op0⟩
    simp only [List.map_cons, List.mem_cons, not_or] at h
    rw [iterLoop]
    simp only
    rw [ih _ h.2, iterStep_snd_other w pid0 op0 r pid h.1]

theorem iterLoop_keys_nodup (w : World) (es : List (ℕ × Option Process))
    (r : Registry) (h : (rKeys r).Nodup) :
    (rKeys (iterLoop w es r).2).Nodup := by
  induction es generalizing r with
  | nil => exact h
  | cons e rest ih =>
    rcases e with ⟨pid0, op0⟩
    rw [iterLoop]
    exact ih _ (iterStep_keys_nodup w pid0 op0 r h)

theorem iterLoop_snd_ok (w : World) (es : List (ℕ × Option Process))
    (r : Registry) (hkeys : (es.map (fun e => e.1)).Nodup)
    (hok : ∀ e ∈ es, Process.construct w e.1 = .ok (freshOf w e.1))
    (hcache : ∀ pid p, (pid, some p) ∈ es → rLookup r pid = some p) :
    ∀ pid ∈ es.map (fun e => e.1),
      rLookup (iterLoop w es r).2 pid = some (freshOf w pid) := by
  induction es generalizing r with
  | nil => intro pid h; cases h
  | cons e rest ih =>
    rcases e with ⟨pid0, op0⟩
    rw [List.map_cons, List.nodup_cons] at hkeys
    intro pid hpid
    rw [iterLoop]
    simp only
    rcases List.mem_cons.1 hpid with h | h
    · subst h
      rw [iterLoop_snd_not_mem w rest _ pid hkeys.1]
      exact iterStep_snd_ok w pid op0 r (hok _ (List.mem_cons_self _ _))
        (fun p hp => hcache pid p (hp ▸ List.mem_cons_self _ _))
    · refine ih _ hkeys.2 (fun e he => hok e (List.mem_cons_of_mem _ he)) ?_ pid h
      intro pid' p hp
      have hne : pid' ≠ pid0 := by
        intro hc
        exact hkeys.1 (hc ▸ List.mem_map.2 ⟨(pid', some p), hp, rfl⟩)
      rw [iterStep_snd_other w pid0 op0 r pid' hne]
      exact hcache pid' p (List.mem_cons_of_mem _ hp)

/-- When every entry yields the fresh handle for its pid, the loop yields
are exactly the fresh handles in entry order. -/
theorem flatMap_stepYield_eq_map (w : World) (es : List (ℕ × Option Process))
    (h : ∀ e ∈ es, stepYield w e = [some (freshOf w e.1)]) :
    es.flatMap (stepYield w) =
      (es.map (fun e => e.1)).map (fun pid => some (freshOf w pid)) := by
  induction es with
  | nil => rfl
  | cons e rest ih =>
    rw [List.flatMap_cons, h e (List.mem_cons_self _ _), List.map_cons, List.map_cons]
    rw [ih (fun x hx => h x (List.mem_cons_of_mem _ hx))]
    rfl

/-- Master characterization of one process_iter call against an unchanged,
fully constructible world: it yields exactly the fresh handle identity for
every currently-live pid, in ascending pid order, whatever the starting
registry (with unique keys) contained; and the final registry again has
unique keys. -/
theorem processIter_char (w : World) (r₀ : Registry) (hwf : w.wf)
    (hnd : w.noDenied) (hr₀ : (rKeys r₀).Nodup) :
    (processIter w w r₀).1 =
      (List.insertionSort (fun a b => a ≤ b) w.pids).map
        (fun pid => some (freshOf w pid)) ∧
    (rKeys (processIter w w r₀).2).Nodup := by
  have hpi : processIter w w r₀ = iterLoop w
      (List.insertionSort entryLe
        ((r₀.filter (fun e => w.pids.contains e.1)).map (fun e => (e.1, some e.2)) ++
         (w.pids.filter (fun pid => !(r₀.any (fun e => e.1 == pid)))).map
           (fun pid => (pid, (none : Option Process)))))
      (r₀.filter (fun e => w.pids.contains e.1)) := rfl
  set pmap1 := r₀.filter (fun e => w.pids.contains e.1) with hp1
  set newPids := w.pids.filter (fun pid => !(r₀.any (fun e => e.1 == pid))) with hnp
  set entries := pmap1.map (fun e => (e.1, some e.2)) ++
    newPids.map (fun pid => (pid, (none : Option Process))) with hent
  set sorted := List.insertionSort entryLe entries with hsort
  have h1 : (rKeys pmap1).Nodup := by
    rw [hp1]
    exact hr₀.sublist ((List.filter_sublist r₀).map _)
  have h2 : newPids.Nodup := hwf.filter _
  have hany : ∀ pid, (r₀.any (fun e => e.1 == pid) = true) ↔ pid ∈ rKeys r₀ := by
    intro pid
    rw [List.any_eq_true]
    unfold rKeys
    constructor
    · rintro ⟨e, he, hk⟩
      simp only [beq_iff_eq] at hk
      exact List.mem_map.2 ⟨e, he, hk⟩
    · intro h
      rcases List.mem_map.1 h with ⟨e, he, hk⟩
      exact ⟨e, he, by simp [hk]⟩
  have hmem_p1 : ∀ pid, pid ∈ rKeys pmap1 ↔ (pid ∈ rKeys r₀ ∧ pid ∈ w.pids) := by
    intro pid
    rw [hp1]
    unfold rKeys
    constructor
    · intro h
      rcases List.mem_map.1 h with ⟨e, he, hk⟩
      have hmm := List.mem_of_mem_filter he
      have hcond := List.of_mem_filter he
      refine ⟨List.mem_map.2 ⟨e, hmm, hk⟩, ?_⟩
      rw [← hk]
      exact List.elem_iff.1 hcond
    · rintro ⟨hr, ha⟩
      rcases List.mem_map.1 hr with ⟨e, he, hk⟩
      exact List.mem_map.2 ⟨e, List.mem_filter.2 ⟨he, List.elem_iff.2 (hk ▸ ha)⟩, hk⟩
  have hmem_np : ∀ pid, pid ∈ newPids ↔ (pid ∈ w.pids ∧ pid ∉ rKeys r₀) := by
    intro pid
    rw [hnp, List.mem_filter]
    constructor
    · rintro ⟨ha, hcond⟩
      refine ⟨ha, ?_⟩
      intro hc
      rw [Bool.not_eq_true', ← Bool.not_eq_true] at hcond
      exact hcond ((hany pid).2 hc)
    · rintro ⟨ha, hnk⟩
      refine ⟨ha, ?_⟩
      rw [Bool.not_eq_true']
      rw [← Bool.not_eq_true]
      intro hc
      exact hnk ((hany pid).1 hc)
  have hkeys_ent : entries.map (fun e => e.1) = rKeys pmap1 ++ newPids := by
    rw [hent, List.map_append, List.map_map, List.map_map]
    simp [Function.comp_def, rKeys]
  have h3 : (entries.map (fun e => e.1)).Nodup := by
    rw [hkeys_ent, List.nodup_append]
    refine ⟨h1, h2, ?_⟩
    intro x hx hx2
    exact ((hmem_np x).1 hx2).2 ((hmem_p1 x).1 hx).1
  have hmem_ent : ∀ pid, pid ∈ entries.map (fun e => e.1) ↔ pid ∈ w.pids := by
    intro pid
    rw [hkeys_ent, List.mem_append, hmem_p1 pid, hmem_np pid]
    constructor
    · rintro (⟨_, h⟩ | ⟨h, _⟩) <;> exact h
    · intro h
      by_cases hk : pid ∈ rKeys r₀
      · exact Or.inl ⟨hk, h⟩
      · exact Or.inr ⟨h, hk⟩
  have hperm : sorted.Perm entries := List.perm_insertionSort entryLe entries
  have hkperm : (sorted.map (fun e => e.1)).Perm (entries.map (fun e => e.1)) :=
    hperm.map _
  have hsorted : List.Sorted entryLe sorted := List.sorted_insertionSort entryLe entries
  have hksorted : List.Sorted (fun a b => a ≤ b) (sorted.map (fun e => e.1)) :=
    List.pairwise_map.2 hsorted
  have hkeq : sorted.map (fun e => e.1) =
      List.insertionSort (fun a b => a ≤ b) w.pids := by
    apply List.eq_of_perm_of_sorted _ hksorted (List.sorted_insertionSort _ _)
    have hpidsperm : (entries.map (fun e => e.1)).Perm w.pids := by
      apply List.perm_of_nodup_nodup_toFinset_eq h3 hwf
      ext x
      simp only [List.mem_toFinset]
      exact hmem_ent x
    exact hkperm.trans (hpidsperm.trans (List.perm_insertionSort _ _).symm)
  have hyield : ∀ e ∈ sorted, stepYield w e = [some (freshOf w e.1)] := by
    intro e he
    have hm : e.1 ∈ w.pids :=
      (hmem_ent e.1).1 (List.mem_map.2 ⟨e, hperm.subset he, rfl⟩)
    rcases e with ⟨pid, op⟩
    exact stepYield_ok w pid op (construct_ok_char w pid hnd hm)
  constructor
  · rw [hpi, iterLoop_fst, flatMap_stepYield_eq_map w sorted hyield, hkeq]
  · rw [hpi]
    exact iterLoop_keys_nodup w sorted pmap1 h1

/-- Reflexivity of handle identity. -/
theorem procEq_refl (p : Process) : procEq p p = true := by
  simp [procEq]

/-! ## Claim C3: enumeration order and idempotence -/

/-- C3: against an unchanged, fully constructible live-pid set, process_iter
yields exactly one handle per currently-live pid in ascending pid order
(the yield sequence is the fresh-handle map over the sorted live pids,
which is sorted and a permutation of the live pids), deterministically (it
is a function of the world and registry); and a second enumeration against
the same world yields the identical sequence, hence handles pairwise
identity-equal to the first call's. -/
theorem C3_process_iter_enumeration (w : World) (r₀ : Registry) (hwf : w.wf)
    (hnd : w.noDenied) (hr₀ : (rKeys r₀).Nodup) :
    (processIter w w r₀).1 =
      (List.insertionSort (fun a b => a ≤ b) w.pids).map
        (fun pid => some (freshOf w pid))
    ∧ List.Sorted (fun a b => a ≤ b) (List.insertionSort (fun a b => a ≤ b) w.pids)
    ∧ (List.insertionSort (fun a b => a ≤ b) w.pids).Perm w.pids
    ∧ (processIter w w (processIter w w r₀).2).1 = (processIter w w r₀).1
    ∧ List.Forall₂ (fun x y => ∃ p q, x = some p ∧ y = some q ∧ procEq p q = true)
        (processIter w w r₀).1 (processIter w w (processIter w w r₀).2).1 := by
  obtain ⟨hy1, hn1⟩ := processIter_char w r₀ hwf hnd hr₀
  obtain ⟨hy2, _⟩ := processIter_char w _ hwf hnd hn1
  refine ⟨hy1, List.sorted_insertionSort _ _, List.perm_insertionSort _ _, ?_, ?_⟩
  · rw [hy1, hy2]
  · rw [hy1, hy2, List.forall₂_same]
    intro x hx
    rcases List.mem_map.1 hx with ⟨pid, _, hk⟩
    exact ⟨freshOf w pid, freshOf w pid, hk.symm, hk.symm, procEq_refl _⟩

/-- Witness for C3 at a concrete two-process world and empty registry. -/
theorem C3_process_iter_enumeration_witness :
    (processIter ⟨[(2, Entry.ok (some 1) 0), (1, Entry.ok (some 0) 0)]⟩
        ⟨[(2, Entry.ok (some 1) 0), (1, Entry.ok (some 0) 0)]⟩ []).1 =
      (List.insertionSort (fun a b => a ≤ b)
          (World.pids ⟨[(2, Entry.ok (some 1) 0), (1, Entry.ok (some 0) 0)]⟩)).map
        (fun pid => some (freshOf ⟨[(2, Entry.ok (some 1) 0), (1, Entry.ok (some 0) 0)]⟩ pid))
    ∧ List.Sorted (fun a b => a ≤ b) (List.insertionSort (fun a b => a ≤ b)
        (World.pids ⟨[(2, Entry.ok (some 1) 0), (1, Entry.ok (some 0) 0)]⟩))
    ∧ (List.insertionSort (fun a b => a ≤ b)
        (World.pids ⟨[(2, Entry.ok (some 1) 0), (1, Entry.ok (some 0) 0)]⟩)).Perm
        (World.pids ⟨[(2, Entry.ok (some 1) 0), (1, Entry.ok (some 0) 0)]⟩)
    ∧ (processIter ⟨[(2, Entry.ok (some 1) 0), (1, Entry.ok (some 0) 0)]⟩
        ⟨[(2, Entry.ok (some 1) 0), (1, Entry.ok (some 0) 0)]⟩
        (processIter ⟨[(2, Entry.ok (some 1) 0), (1, Entry.ok (some 0) 0)]⟩
          ⟨[(2, Entry.ok (some 1) 0), (1, Entry.ok (some 0) 0)]⟩ []).2).1 =
      (processIter ⟨[(2, Entry.ok (some 1) 0), (1, Entry.ok (some 0) 0)]⟩
        ⟨[(2, Entry.ok (some 1) 0), (1, Entry.ok (some 0) 0)]⟩ []).1
    ∧ List.Forall₂ (fun x y => ∃ p q, x = some p ∧ y = some q ∧ procEq p q = true)
        (processIter ⟨[(2, Entry.ok (some 1) 0), (1, Entry.ok (some 0) 0)]⟩
          ⟨[(2, Entry.ok (some 1) 0), (1, Entry.ok (some 0) 0)]⟩ []).1
        (processIter ⟨[(2, Entry.ok (some 1) 0), (1, Entry.ok (some 0) 0)]⟩
          ⟨[(2, Entry.ok (some 1) 0), (1, Entry.ok (some 0) 0)]⟩
          (processIter ⟨[(2, Entry.ok (some 1) 0), (1, Entry.ok (some 0) 0)]⟩
            ⟨[(2, Entry.ok (some 1) 0), (1, Entry.ok (some 0) 0)]⟩ []).2).1 :=
  C3_process_iter_enumeration ⟨[(2, Entry.ok (some 1) 0), (1, Entry.ok (some 0) 0)]⟩ []
    (by unfold World.wf; decide) (by unfold World.noDenied; decide) (by decide)

/-! ## Claim C4: per-pid failures never abort an enumeration -/

/-- C4: the enumeration's yield sequence decomposes into independent
per-entry contributions (so a failure at one pid never aborts the whole
call); a pid for which the probe reports NoSuchProcess is evicted from the
registry and contributes no yield; and a cached handle whose liveness
re-check hits AccessDenied is yielded stale, as a best-effort fallback,
with the registry untouched. -/
theorem C4_per_pid_failure_isolation :
    (∀ (w : World) (es : List (ℕ × Option Process)) (r : Registry),
        (iterLoop w es r).1 = es.flatMap (stepYield w))
    ∧ (∀ (w : World) (pid : ℕ) (op : Option Process) (r : Registry),
        w.find pid = none → iterStep w pid op r = ([], rRemove r pid))
    ∧ (∀ (w : World) (pid : ℕ) (p : Process) (r : Registry),
        w.find pid = some .denied → iterStep w pid (some p) r = ([some p], r)) := by
  refine ⟨iterLoop_fst, ?_, ?_⟩
  · intro w pid op r h
    have hc : Process.construct w pid = .error .noSuchProcess := by
      rw [Process.construct, h]
    unfold iterStep
    rcases op with _ | p
    · simp [hc]
    · rcases hg : p.gone
      · simp [hg, hc]
      · simp [hg, hc]
  · intro w pid p r h
    have hc : Process.construct w pid = .error .accessDenied := by
      rw [Process.construct, h]
    unfold iterStep
    rcases hg : p.gone
    · simp [hg, hc]
    · simp [hg, hc]

/-- Membership of the enumerated-handle pool holds along any Reach chain. -/
theorem Reach.pool {w : World} {ps : List Process} {top : ℕ} {p : Process}
    (h : Reach w ps top p) : p ∈ ps := by
  cases h with
  | base q hq _ => exact hq
  | step q r _ hr _ => exact hr

/-- Membership of the enumerated-handle pool holds along any Desc chain. -/
theorem Desc.inPool {w : World} {ps : List Process} {x : ℕ} {p : Process}
    (h : Desc w ps x p) : p ∈ ps := by
  cases h with
  | base p hp _ => exact hp
  | step q p _ hp _ => exact hp

theorem tableGet_mem (w : World) (ps : List Process) (pid : ℕ) (c : Process)
    (hc : c ∈ tableGet (buildTable w ps) pid) :
    c ∈ ps ∧ w.ppidOf c.pid = some pid := by
  unfold tableGet at hc
  rcases List.mem_map.1 hc with ⟨e, he, hk⟩
  have hmm := List.mem_of_mem_filter he
  have hcond := List.of_mem_filter he
  simp only [beq_iff_eq] at hcond
  unfold buildTable at hmm
  rcases List.mem_filterMap.1 hmm with ⟨p, hp, hmap⟩
  rcases hppid : w.ppidOf p.pid with _ | pp
  · rw [hppid] at hmap
    cases hmap
  · rw [hppid] at hmap
    simp only [Option.map_some'] at hmap
    have he2 : e = (pp, p) := (Option.some.inj hmap).symm
    subst he2
    simp only at hcond hk
    constructor
    · rw [← hk]
      exact hp
    · rw [← hk, hppid, hcond]

/-- Every process the breadth-first traversal returns passed the
creation-time filter. -/
theorem bfsGo_intime (w : World) (root : Process) (tbl : List (ℕ × Process)) :
    ∀ (pending allowed : List ℕ), ∀ p ∈ bfsGo w root tbl pending allowed,
      intimeB w root p = true := by
  intro pending allowed
  induction pending, allowed using bfsGo.induct w root tbl with
  | case1 allowed =>
    intro p hp
    simp [bfsGo] at hp
  | case2 pid pending allowed kids fresh ih =>
    intro p hp
    rw [bfsGo] at hp
    simp only [List.mem_append] at hp
    rcases hp with hp | hp
    · exact (List.mem_filter.1 hp).2
    · exact ih p hp

/-- Every process the breadth-first traversal returns is linked to the
starting pid by a chain of current parent edges through the enumerated
handles: orphaned subtrees are unreachable. -/
theorem bfsGo_reach (w : World) (root : Process) (ps : List Process) :
    ∀ (pending allowed : List ℕ),
      (∀ q ∈ pending, q = root.pid ∨ ∃ x, Reach w ps root.pid x ∧ x.pid = q) →
      ∀ p ∈ bfsGo w root (buildTable w ps) pending allowed,
        Reach w ps root.pid p := by
  intro pending allowed
  induction pending, allowed using bfsGo.induct w root (buildTable w ps) with
  | case1 allowed =>
    intro _ p hp
    simp [bfsGo] at hp
  | case2 pid pending allowed kids fresh ih =>
    intro hinv p hp
    have hkid : ∀ c ∈ (tableGet (buildTable w ps) pid).filter
        (fun c => intimeB w root c), Reach w ps root.pid c := by
      intro c hcf
      have hc := List.mem_of_mem_filter hcf
      obtain ⟨hcp, hppid⟩ := tableGet_mem w ps pid c hc
      rcases hinv pid (List.mem_cons_self _ _) with h | ⟨x, hx, hxp⟩
      · refine Reach.base c hcp ?_
        rw [hppid, h]
      · refine Reach.step x c hx hcp ?_
        rw [hppid, hxp]
    rw [bfsGo] at hp
    simp only [List.mem_append] at hp
    rcases hp with hp | hp
    · exact hkid p hp
    · refine ih ?_ p hp
      intro q hq
      rcases List.mem_append.1 hq with hq | hq
      · exact hinv q (List.mem_cons_of_mem _ hq)
      · have hq2 := List.mem_of_mem_filter hq
        rcases List.mem_map.1 hq2 with ⟨c, hcf, hk⟩
        exact Or.inr ⟨c, hkid c hcf, hk⟩

/-- Over a constructible world, the enumeration feeding get_children is the
fresh handle per live pid, in ascending order. -/
theorem iterProcs_char (w : World) (r : Registry) (hwf : w.wf)
    (hnd : w.noDenied) (hr : (rKeys r).Nodup) :
    iterProcs w r =
      (List.insertionSort (fun a b => a ≤ b) w.pids).map (freshOf w) := by
  unfold iterProcs
  rw [(processIter_char w r hwf hnd hr).1]
  rw [List.filterMap_map]
  exact List.filterMap_eq_map _ ▸ rfl

theorem iterProcs_mem (w : World) (r : Registry) (hwf : w.wf)
    (hnd : w.noDenied) (hr : (rKeys r).Nodup) :
    ∀ p ∈ iterProcs w r, p = freshOf w p.pid ∧ p.pid ∈ w.pids := by
  intro p hp
  rw [iterProcs_char w r hwf hnd hr] at hp
  rcases List.mem_map.1 hp with ⟨pid, hpid, hk⟩
  have hpid2 : p.pid = pid := by rw [← hk]; rfl
  constructor
  · rw [hpid2, ← hk]
  · rw [hpid2]
    exact (List.perm_insertionSort _ _).subset hpid

/-- Unpacking the creation-time filter: a kept child's visible creation
time is at least the root's. -/
theorem intimeB_spec (w : World) (root c : Process) (h : intimeB w root c = true) :
    ∀ rc, ctValue w root = some rc → ∃ cc, ctValue w c = some cc ∧ rc ≤ cc := by
  intro rc hrc
  unfold intimeB intime at h
  rw [hrc] at h
  rcases hcc : ctValue w c with _ | cc
  · rw [hcc] at h
    simp [Option.getD] at h
  · rw [hcc] at h
    simp only [Option.getD_some, decide_eq_true_eq] at h
    exact ⟨cc, rfl, h⟩

/-- Removing an intermediate pid from the live set leaves its entire
recursive subtree absent from the recursive get_children result. -/
theorem subtree_absent (w : World) (r : Registry) (root : Process) (x : ℕ)
    (hwf : w.wf) (hnd : w.noDenied) (hr : (rKeys r).Nodup)
    (hx : x ∉ w.pids) (hxroot : root.pid ≠ x)
    (hnoroot : ∀ q, Desc w (iterProcs w r) x q → q.pid ≠ root.pid) :
    ∀ p, Desc w (iterProcs w r) x p → p ∉ getChildrenRec w r root := by
  have hmemfact := iterProcs_mem w r hwf hnd hr
  have huniq : ∀ p q, p ∈ iterProcs w r → q ∈ iterProcs w r → p.pid = q.pid →
      p = q := by
    intro p q hp hq hpq
    rw [(hmemfact p hp).1, (hmemfact q hq).1, hpq]
  have contra : ∀ q, Desc w (iterProcs w r) x q →
      Reach w (iterProcs w r) root.pid q → False := by
    intro q hq
    induction hq with
    | base p hp he =>
      intro hreach
      cases hreach with
      | base _ _ hp2 =>
        rw [he] at hp2
        exact hxroot (Option.some.inj hp2).symm
      | step q' _ hq' hr2 he2 =>
        rw [he] at he2
        have hxq : x = q'.pid := Option.some.inj he2
        exact hx (hxq ▸ (hmemfact q' hq'.pool).2)
    | step q p hq hp he ih =>
      intro hreach
      cases hreach with
      | base _ _ hp2 =>
        rw [he] at hp2
        exact hnoroot q hq (Option.some.inj hp2)
      | step q' _ hq' hr2 he2 =>
        rw [he] at he2
        have : q = q' := huniq q q' hq.inPool hq'.pool (Option.some.inj he2)
        exact ih (this ▸ hq')
  intro p hdesc hp
  refine contra p hdesc ?_
  refine bfsGo_reach w root (iterProcs w r) _ _ ?_ p hp
  intro q hq
  rcases List.mem_cons.1 hq with h | h
  · exact Or.inl h
  · cases h

/-! ## Claim C7: the descendant creation-time filter and orphaned subtrees -/

/-- C7 counterexample: a three-process world in which pid 3 (creation time
5) is the table child of pid 2 (creation time 10, a reused pid): recursive
get_children from pid 1 (creation time 0) returns both, so the result
contains a process strictly younger than its resolved parent — the filter
compares every node against the ROOT, not against its parent. -/
theorem C7_counterexample :
    getChildrenRec ⟨[(1, .ok (some 0) 0), (2, .ok (some 10) 1), (3, .ok (some 5) 2)]⟩
        [] ⟨1, some 0, false⟩ =
      [⟨2, some 10, false⟩, ⟨3, some 5, false⟩]
    ∧ World.ppidOf ⟨[(1, .ok (some 0) 0), (2, .ok (some 10) 1), (3, .ok (some 5) 2)]⟩ 3 =
        some 2
    ∧ ctValue ⟨[(1, .ok (some 0) 0), (2, .ok (some 10) 1), (3, .ok (some 5) 2)]⟩
        ⟨3, some 5, false⟩ = some 5
    ∧ ctValue ⟨[(1, .ok (some 0) 0), (2, .ok (some 10) 1), (3, .ok (some 5) 2)]⟩
        ⟨2, some 10, false⟩ = some 10
    ∧ (5 : ℚ) < 10 := by
  refine ⟨?_, by decide, by decide, by decide, by norm_num⟩
  have h1 : iterProcs ⟨[(1, .ok (some 0) 0), (2, .ok (some 10) 1), (3, .ok (some 5) 2)]⟩ [] =
      [⟨1, some 0, false⟩, ⟨2, some 10, false⟩, ⟨3, some 5, false⟩] := by decide
  have h2 : buildTable ⟨[(1, .ok (some 0) 0), (2, .ok (some 10) 1), (3, .ok (some 5) 2)]⟩
      [⟨1, some 0, false⟩, ⟨2, some 10, false⟩, ⟨3, some 5, false⟩] =
      [(0, ⟨1, some 0, false⟩), (1, ⟨2, some 10, false⟩), (2, ⟨3, some 5, false⟩)] := by
    decide
  unfold getChildrenRec
  rw [h1, h2]
  norm_num
  rw [bfsGo]
  norm_num [tableGet, intimeB, intime, ctValue, World.ctOf, World.find, List.find?]
  rw [bfsGo]
  norm_num [tableGet, intimeB, intime, ctValue, World.ctOf, World.find, List.find?]
  rw [bfsGo]
  norm_num [tableGet, intimeB, intime, ctValue, World.ctOf, World.find, List.find?]
  rw [bfsGo]

/-- C7 (amended): in both modes of get_children, no returned process has a
creation time strictly earlier than the ROOT's creation time — the filter
applied at every edge of the traversal compares the child against the
root, not against its resolved parent — and removing an intermediate node
from the backend's live set causes that node's entire recursive subtree to
be absent from the result. -/
theorem C7_children_root_filter_and_subtree :
    (∀ (w : World) (r : Registry) (root : Process) (p : Process),
        p ∈ getChildrenRec w r root → ∀ rc, ctValue w root = some rc →
          ∃ pc, ctValue w p = some pc ∧ rc ≤ pc)
    ∧ (∀ (w : World) (r : Registry) (root : Process) (p : Process),
        p ∈ getChildrenNonrec w r root → ∀ rc, ctValue w root = some rc →
          ∃ pc, ctValue w p = some pc ∧ rc ≤ pc)
    ∧ (∀ (w : World) (r : Registry) (root : Process) (x : ℕ),
        w.wf → w.noDenied → (rKeys r).Nodup → x ∉ w.pids → root.pid ≠ x →
        (∀ q, Desc w (iterProcs w r) x q → q.pid ≠ root.pid) →
        ∀ p, Desc w (iterProcs w r) x p → p ∉ getChildrenRec w r root) := by
  refine ⟨?_, ?_, ?_⟩
  · intro w r root p hp rc hrc
    exact intimeB_spec w root p (bfsGo_intime w root _ _ _ p hp) rc hrc
  · intro w r root p hp rc hrc
    have hcond := List.of_mem_filter hp
    simp only [Bool.and_eq_true] at hcond
    exact intimeB_spec w root p hcond.2 rc hrc
  · intro w r root x hwf hnd hr hx hxroot hnoroot
    exact subtree_absent w r root x hwf hnd hr hx hxroot hnoroot

/-- Witness for C7 (amended): the root-relative bound evaluated on the
concrete three-process world for the returned handle of pid 2. -/
theorem C7_children_root_filter_and_subtree_witness :
    ∃ pc, ctValue ⟨[(1, .ok (some 0) 0), (2, .ok (some 10) 1), (3, .ok (some 5) 2)]⟩
        ⟨2, some 10, false⟩ = some pc ∧ (0 : ℚ) ≤ pc := by
  have h1 : iterProcs ⟨[(1, .ok (some 0) 0), (2, .ok (some 10) 1), (3, .ok (some 5) 2)]⟩ [] =
      [⟨1, some 0, false⟩, ⟨2, some 10, false⟩, ⟨3, some 5, false⟩] := by decide
  have h2 : buildTable ⟨[(1, .ok (some 0) 0), (2, .ok (some 10) 1), (3, .ok (some 5) 2)]⟩
      [⟨1, some 0, false⟩, ⟨2, some 10, false⟩, ⟨3, some 5, false⟩] =
      [(0, ⟨1, some 0, false⟩), (1, ⟨2, some 10, false⟩), (2, ⟨3, some 5, false⟩)] := by
    decide
  have hres : getChildrenRec
      ⟨[(1, .ok (some 0) 0), (2, .ok (some 10) 1), (3, .ok (some 5) 2)]⟩ []
      ⟨1, some 0, false⟩ = [⟨2, some 10, false⟩, ⟨3, some 5, false⟩] := by
    unfold getChildrenRec
    rw [h1, h2]
    norm_num
    rw [bfsGo]
    norm_num [tableGet, intimeB, intime, ctValue, World.ctOf, World.find, List.find?]
    rw [bfsGo]
    norm_num [tableGet, intimeB, intime, ctValue, World.ctOf, World.find, List.find?]
    rw [bfsGo]
    norm_num [tableGet, intimeB, intime, ctValue, World.ctOf, World.find, List.find?]
    rw [bfsGo]
  refine C7_children_root_filter_and_subtree.1
    ⟨[(1, .ok (some 0) 0), (2, .ok (some 10) 1), (3, .ok (some 5) 2)]⟩ []
    ⟨1, some 0, false⟩ ⟨2, some 10, false⟩ ?_ 0 ?_
  · rw [hres]
    exact List.mem_cons_self _ _
  · decide

theorem forall₂_sum_le {l1 l2 : List ℚ}
    (h : List.Forall₂ (fun a b => a ≤ b) l1 l2) : l1.sum ≤ l2.sum := by
  induction h with
  | nil => simp
  | cons h1 h2 ih =>
    simp only [List.sum_cons]
    exact add_le_add h1 ih

theorem forall₂_zip_delta : ∀ {l1 l2 : List ℚ},
    List.Forall₂ (fun a b => a ≤ b) l1 l2 →
    ∀ pr ∈ l1.zip l2, 0 ≤ pr.2 - pr.1 ∧ pr.2 - pr.1 ≤ l2.sum - l1.sum := by
  intro l1
  induction l1 with
  | nil =>
    intro l2 h pr hpr
    simp at hpr
  | cons a t ih =>
    intro l2 h pr hpr
    rcases l2 with _ | ⟨b, t2⟩
    · cases h
    · rw [List.forall₂_cons] at h
      rw [List.zip_cons_cons] at hpr
      rcases List.mem_cons.1 hpr with he | ht
      · subst he
        have hs := forall₂_sum_le h.2
        simp only [List.sum_cons]
        constructor
        · simp only [sub_nonneg]
          exact h.1
        · linarith
      · obtain ⟨h0, hle⟩ := ih h.2 pr ht
        simp only [List.sum_cons]
        exact ⟨h0, by linarith [h.1]⟩

/-- calculate, under monotone counters, never divides by zero and produces
a rounded percentage in [0, 100]. -/
theorem calculate_range (t1 t2 : CpuT) (hidle : t1.idle ≤ t2.idle)
    (hrest : List.Forall₂ (fun a b => a ≤ b) t1.rest t2.rest) :
    ∃ v, calculate t1 t2 = .ok v ∧ 0 ≤ v ∧ v ≤ 100 := by
  have hsum := forall₂_sum_le hrest
  have hbusy1 : t1.total - t1.idle = t1.rest.sum := by
    unfold CpuT.total
    ring
  have hbusy2 : t2.total - t2.idle = t2.rest.sum := by
    unfold CpuT.total
    ring
  unfold calculate
  rw [hbusy1, hbusy2]
  by_cases hb : t2.rest.sum ≤ t1.rest.sum
  · rw [if_pos hb]
    exact ⟨0, rfl, le_refl 0, by norm_num⟩
  · rw [if_neg hb]
    push_neg at hb
    have had : 0 < t2.total - t1.total := by
      unfold CpuT.total
      linarith
    have hne : ¬(t2.total - t1.total = 0) := by
      intro hc
      rw [hc] at had
      exact lt_irrefl 0 had
    rw [if_neg hne]
    refine ⟨_, rfl, ?_, ?_⟩
    · apply round1_nonneg
      have h0 : 0 ≤ (t2.rest.sum - t1.rest.sum) / (t2.total - t1.total) :=
        div_nonneg (by linarith) (le_of_lt had)
      linarith
    · apply round1_le_hundred
      have hdle : t2.rest.sum - t1.rest.sum ≤ t2.total - t1.total := by
        unfold CpuT.total
        linarith
      have hdiv : (t2.rest.sum - t1.rest.sum) / (t2.total - t1.total) ≤ 1 :=
        (div_le_one had).2 hdle
      have := mul_le_mul_of_nonneg_right hdiv (by norm_num : (0 : ℚ) ≤ 100)
      linarith

/-- Each field percentage of cpu_times_percent lies in [0, 100] under
monotone counters, on every platform. -/
theorem calcFields_range (windows : Bool) (t1 t2 : CpuT)
    (hidle : t1.idle ≤ t2.idle)
    (hrest : List.Forall₂ (fun a b => a ≤ b) t1.rest t2.rest) :
    ∀ v ∈ calcFields windows t1 t2, 0 ≤ v ∧ v ≤ 100 := by
  intro v hv
  unfold calcFields at hv
  rcases List.mem_map.1 hv with ⟨pr, hpr, hk⟩
  have hfields : List.Forall₂ (fun a b => a ≤ b) t1.fields t2.fields :=
    List.Forall₂.cons hidle hrest
  obtain ⟨h0, hle⟩ := forall₂_zip_delta hfields pr hpr
  have hsums : t2.fields.sum - t1.fields.sum = t2.total - t1.total := by
    unfold CpuT.fields CpuT.total
    simp only [List.sum_cons]
  rw [hsums] at hle
  subst hk
  unfold calcField
  by_cases hz : t2.total - t1.total = 0
  · rw [if_pos hz]
    have hr0 : round1 0 = 0 := by
      unfold round1
      norm_num
    rcases windows
    · simp [hr0]
    · simp only [hr0, if_true]
      norm_num
  · rw [if_neg hz]
    have had : 0 < t2.total - t1.total := lt_of_le_of_ne (le_trans h0 hle) (Ne.symm hz)
    have hq0 : 0 ≤ 100 * (pr.2 - pr.1) / (t2.total - t1.total) :=
      div_nonneg (by linarith) (le_of_lt had)
    have hq1 : 100 * (pr.2 - pr.1) / (t2.total - t1.total) ≤ 100 := by
      rw [div_le_iff₀ had]
      linarith
    have hb0 := round1_nonneg hq0
    have hb1 := round1_le_hundred hq1
    rcases windows
    · simp only [Bool.false_eq_true, if_false]
      exact ⟨hb0, hb1⟩
    · simp only [if_true]
      by_cases hgt : 100 < round1 (100 * (pr.2 - pr.1) / (t2.total - t1.total))
      · rw [if_pos hgt]
        norm_num
      · rw [if_neg hgt]
        by_cases hlt : round1 (100 * (pr.2 - pr.1) / (t2.total - t1.total)) < 0
        · rw [if_pos hlt]
          norm_num
        · rw [if_neg hlt]
          exact ⟨hb0, hb1⟩

/-- The deliberate bootstrap rule of non-blocking get_cpu_percent: with no
stored baseline, store one and return exactly 0.0. -/
theorem getCpuPercentNB_first (posix : Bool) (ncpus : ℕ) (st2 : ℚ)
    (pt2 : PTimes) (s : ProcCpuState)
    (h : s.lastSys = none ∨ s.lastProc = none) :
    getCpuPercentNB posix ncpus st2 pt2 s = (0, ⟨some st2, some pt2⟩) := by
  rcases s with ⟨ls, lp⟩
  rcases ls with _ | st1
  · rfl
  · rcases lp with _ | pt1
    · rfl
    · rcases h with h | h <;> simp at h

/-- Non-blocking get_cpu_percent with a stored baseline and consistent
samples: the result lies in [0, 100 * ncpus], and off POSIX it is capped
at 100. -/
theorem getCpuPercentNB_range (posix : Bool) (ncpus : ℕ) (st1 st2 : ℚ)
    (pt1 pt2 : PTimes) (hn : 1 ≤ ncpus)
    (h0 : 0 ≤ (pt2.user - pt1.user) + (pt2.system - pt1.system))
    (hle : (pt2.user - pt1.user) + (pt2.system - pt1.system) ≤ st2 - st1) :
    0 ≤ (getCpuPercentNB posix ncpus st2 pt2 ⟨some st1, some pt1⟩).1 ∧
    (getCpuPercentNB posix ncpus st2 pt2 ⟨some st1, some pt1⟩).1 ≤ 100 * ncpus ∧
    (posix = false → (getCpuPercentNB posix ncpus st2 pt2 ⟨some st1, some pt1⟩).1 ≤ 100) := by
  have hn1 : (1 : ℚ) ≤ (ncpus : ℚ) := by exact_mod_cast hn
  have hnn : (0 : ℚ) ≤ (ncpus : ℚ) := by positivity
  simp only [getCpuPercentNB]
  split_ifs with h1 h2
  · refine ⟨le_refl 0, by positivity, fun _ => by norm_num⟩
  · refine ⟨by norm_num, ?_, fun _ => le_refl 100⟩
    show (100 : ℚ) ≤ 100 * ncpus
    have h100 : (100 : ℚ) * 1 ≤ 100 * ncpus :=
      mul_le_mul_of_nonneg_left hn1 (by norm_num)
    linarith
  · have hdt0 : 0 < st2 - st1 := lt_of_le_of_ne (le_trans h0 hle) (Ne.symm h1)
    have hov0 : 0 ≤ ((pt2.user - pt1.user) + (pt2.system - pt1.system)) /
        (st2 - st1) * 100 := by
      have := div_nonneg h0 (le_of_lt hdt0)
      linarith
    have hovle : ((pt2.user - pt1.user) + (pt2.system - pt1.system)) /
        (st2 - st1) * 100 ≤ 100 := by
      have hdiv : ((pt2.user - pt1.user) + (pt2.system - pt1.system)) /
          (st2 - st1) ≤ 1 := (div_le_one hdt0).2 hle
      have := mul_le_mul_of_nonneg_right hdiv (by norm_num : (0 : ℚ) ≤ 100)
      linarith
    have hs0 : 0 ≤ ((pt2.user - pt1.user) + (pt2.system - pt1.system)) /
        (st2 - st1) * 100 * ncpus := mul_nonneg hov0 hnn
    have hsle : ((pt2.user - pt1.user) + (pt2.system - pt1.system)) /
        (st2 - st1) * 100 * ncpus ≤ 100 * ncpus :=
      mul_le_mul_of_nonneg_right hovle hnn
    refine ⟨round1_nonneg hs0, round1_le_natMul hsle, ?_⟩
    intro hp
    have hnot : ¬ (100 < ((pt2.user - pt1.user) + (pt2.system - pt1.system)) /
        (st2 - st1) * 100 * ncpus) := fun hc => h2 ⟨hp, hc⟩
    exact round1_le_hundred (le_of_not_lt hnot)

/-! ## Claim C5: non-blocking bootstrap and result range -/

/-- C5: for the per-process subject (the one whose baseline starts absent),
a non-blocking call with no stored sample stores the fresh sample as
baseline and returns exactly 0.0; subsequent non-blocking calls with
consistent samples return a value in [0, 100 * core_count], clamped to
[0, 100] where the platform caps at 100 (non-POSIX); and for the
system-wide subject of both snapshot windows, whose baseline exists
from module load onward, every non-blocking call under monotone counters returns a
value in [0, 100]. -/
theorem C5_nonblocking_bootstrap_and_range :
    (∀ (posix : Bool) (ncpus : ℕ) (st2 : ℚ) (pt2 : PTimes) (s : ProcCpuState),
        s.lastSys = none ∨ s.lastProc = none →
        getCpuPercentNB posix ncpus st2 pt2 s = (0, ⟨some st2, some pt2⟩))
    ∧ (∀ (posix : Bool) (ncpus : ℕ) (st1 st2 : ℚ) (pt1 pt2 : PTimes),
        1 ≤ ncpus →
        0 ≤ (pt2.user - pt1.user) + (pt2.system - pt1.system) →
        (pt2.user - pt1.user) + (pt2.system - pt1.system) ≤ st2 - st1 →
        0 ≤ (getCpuPercentNB posix ncpus st2 pt2 ⟨some st1, some pt1⟩).1 ∧
        (getCpuPercentNB posix ncpus st2 pt2 ⟨some st1, some pt1⟩).1 ≤ 100 * ncpus ∧
        (posix = false →
          (getCpuPercentNB posix ncpus st2 pt2 ⟨some st1, some pt1⟩).1 ≤ 100))
    ∧ (∀ t1 t2 : CpuT, t1.idle ≤ t2.idle →
        List.Forall₂ (fun a b => a ≤ b) t1.rest t2.rest →
        ∃ v, (cpuPercentNB t1 t2).1 = .ok v ∧ 0 ≤ v ∧ v ≤ 100 ∧
          (cpuPercentNB t1 t2).2 = t2)
    ∧ (∀ (windows : Bool) (t1 t2 : CpuT), t1.idle ≤ t2.idle →
        List.Forall₂ (fun a b => a ≤ b) t1.rest t2.rest →
        ∀ v ∈ calcFields windows t1 t2, 0 ≤ v ∧ v ≤ 100) := by
  refine ⟨getCpuPercentNB_first, getCpuPercentNB_range, ?_, calcFields_range⟩
  intro t1 t2 hidle hrest
  obtain ⟨v, hv, h0, h1⟩ := calculate_range t1 t2 hidle hrest
  exact ⟨v, hv, h0, h1, rfl⟩

/-- Witness for C5: the bootstrap at an empty baseline and the range on a
concrete subsequent call. -/
theorem C5_nonblocking_bootstrap_and_range_witness :
    getCpuPercentNB true 1 1 ⟨0, 0⟩ ⟨none, none⟩ = (0, ⟨some 1, some ⟨0, 0⟩⟩) ∧
    (0 ≤ (getCpuPercentNB true 1 2 ⟨1, 1⟩ ⟨some 0, some ⟨0, 0⟩⟩).1 ∧
     (getCpuPercentNB true 1 2 ⟨1, 1⟩ ⟨some 0, some ⟨0, 0⟩⟩).1 ≤ 100 * 1 ∧
     (true = false → (getCpuPercentNB true 1 2 ⟨1, 1⟩ ⟨some 0, some ⟨0, 0⟩⟩).1 ≤ 100)) :=
  ⟨C5_nonblocking_bootstrap_and_range.1 true 1 1 ⟨0, 0⟩ ⟨none, none⟩ (Or.inl rfl),
   C5_nonblocking_bootstrap_and_range.2.1 true 1 0 2 ⟨0, 0⟩ ⟨1, 1⟩ (le_refl 1)
     (by norm_num) (by norm_num)⟩

/-! ## Claim C6: accounting edge cases -/

/-- C6 counterexample: off POSIX (the platform whose counters may regress,
per the code's own workaround comments), non-blocking get_cpu_percent with
a regressed process counter returns -200.0: the elapsed busy time did not
increase yet the result is not 0.0, and the result is not clamped into
[0, 100]. -/
theorem C6_counterexample :
    (getCpuPercentNB false 2 10 ⟨0, 0⟩ ⟨some 0, some ⟨5, 5⟩⟩).1 = -200 ∧
    ¬ ((getCpuPercentNB false 2 10 ⟨0, 0⟩ ⟨some 0, some ⟨5, 5⟩⟩).1 = 0) ∧
    (getCpuPercentNB false 2 10 ⟨0, 0⟩ ⟨some 0, some ⟨5, 5⟩⟩).1 < 0 := by
  have hval : (getCpuPercentNB false 2 10 ⟨0, 0⟩ ⟨some 0, some ⟨5, 5⟩⟩).1 = -200 := by
    simp only [getCpuPercentNB]
    norm_num
    unfold round1
    have hcast : (-200 : ℚ) * 10 = ((-2000 : ℤ) : ℚ) := by norm_num
    rw [hcast, round_intCast]
    norm_num
  refine ⟨hval, ?_, ?_⟩
  · rw [hval]
    norm_num
  · rw [hval]
    norm_num

theorem round1_zero : round1 0 = 0 := by
  unfold round1
  norm_num

theorem calcField_zero (windows : Bool) (d : ℚ) : calcField windows 0 d = 0 := by
  rcases windows <;> simp [calcField, round1_zero]

theorem clamp_range (fp : ℚ) :
    0 ≤ (if 100 < fp then (100 : ℚ) else if fp < 0 then 0 else fp) ∧
    (if 100 < fp then (100 : ℚ) else if fp < 0 then 0 else fp) ≤ 100 := by
  split_ifs with h1 h2
  · exact ⟨by norm_num, le_refl 100⟩
  · exact ⟨le_refl 0, by norm_num⟩
  · exact ⟨le_of_not_lt h2, le_of_not_lt h1⟩

theorem calcField_true_range (ad d : ℚ) :
    0 ≤ calcField true ad d ∧ calcField true ad d ≤ 100 := by
  by_cases hz : ad = 0
  · rw [hz, calcField_zero]
    exact ⟨le_refl 0, by norm_num⟩
  · have hform : calcField true ad d =
        (if 100 < round1 (100 * d / ad) then (100 : ℚ)
         else if round1 (100 * d / ad) < 0 then 0 else round1 (100 * d / ad)) := by
      simp [calcField, hz]
    rw [hform]
    exact clamp_range _

theorem getCpuPercentNB_dtzero (posix : Bool) (ncpus : ℕ) (st : ℚ)
    (pt1 pt2 : PTimes) :
    (getCpuPercentNB posix ncpus st pt2 ⟨some st, some pt1⟩).1 = 0 := by
  simp [getCpuPercentNB, sub_self]

theorem getCpuPercentNB_cap (ncpus : ℕ) (st2 : ℚ) (pt2 : PTimes)
    (s : ProcCpuState) :
    (getCpuPercentNB false ncpus st2 pt2 s).1 ≤ 100 := by
  rcases s with ⟨ls, lp⟩
  rcases ls with _ | st1
  · norm_num [getCpuPercentNB]
  · rcases lp with _ | pt1
    · norm_num [getCpuPercentNB]
    · simp only [getCpuPercentNB]
      split_ifs with h1 h2
      · norm_num
      · norm_num
      · have hnot : ¬ (100 < ((pt2.user - pt1.user) + (pt2.system - pt1.system)) /
            (st2 - st1) * 100 * ncpus) := fun hc => h2 ⟨trivial, hc⟩
        exact round1_le_hundred (le_of_not_lt hnot)

/-- C6 (amended): cpu_percent's calculate returns exactly 0.0 whenever the
elapsed busy time did not increase, and under monotone counters it never
divides by zero; Process.get_cpu_percent and every field of
cpu_times_percent return 0.0 on a zero elapsed total, with the division by
zero caught; and on Windows — the platform whose counters may regress, per
the code's own comments — cpu_times_percent clamps every field into
[0, 100] while get_cpu_percent only caps results from above at 100
(negative results are returned unclamped, as the counterexample shows). -/
theorem C6_accounting_edge_cases :
    (∀ t1 t2 : CpuT, t2.total - t2.idle ≤ t1.total - t1.idle →
        calculate t1 t2 = .ok 0)
    ∧ (∀ t1 t2 : CpuT, t1.idle ≤ t2.idle →
        List.Forall₂ (fun a b => a ≤ b) t1.rest t2.rest →
        ∃ v, calculate t1 t2 = .ok v)
    ∧ (∀ (posix : Bool) (ncpus : ℕ) (st : ℚ) (pt1 pt2 : PTimes),
        (getCpuPercentNB posix ncpus st pt2 ⟨some st, some pt1⟩).1 = 0)
    ∧ (∀ (windows : Bool) (t1 t2 : CpuT), t2.total - t1.total = 0 →
        ∀ v ∈ calcFields windows t1 t2, v = 0)
    ∧ (∀ ad d : ℚ, 0 ≤ calcField true ad d ∧ calcField true ad d ≤ 100)
    ∧ (∀ (ncpus : ℕ) (st2 : ℚ) (pt2 : PTimes) (s : ProcCpuState),
        (getCpuPercentNB false ncpus st2 pt2 s).1 ≤ 100) := by
  refine ⟨?_, ?_, getCpuPercentNB_dtzero, ?_, calcField_true_range,
    getCpuPercentNB_cap⟩
  · intro t1 t2 h
    unfold calculate
    rw [if_pos h]
  · intro t1 t2 hidle hrest
    obtain ⟨v, hv, _, _⟩ := calculate_range t1 t2 hidle hrest
    exact ⟨v, hv⟩
  · intro windows t1 t2 hz v hv
    unfold calcFields at hv
    rcases List.mem_map.1 hv with ⟨pr, _, hk⟩
    rw [hz] at hk
    rw [← hk]
    exact calcField_zero windows _

/-- Witness for C6 (amended): the zero-busy-delta and monotone-counter
parts evaluated at concrete samples. -/
theorem C6_accounting_edge_cases_witness :
    calculate ⟨0, [1]⟩ ⟨0, [1]⟩ = .ok 0 ∧
    (∃ v, calculate ⟨0, [1]⟩ ⟨0, [2]⟩ = .ok v) :=
  ⟨C6_accounting_edge_cases.1 ⟨0, [1]⟩ ⟨0, [1]⟩ (by norm_num [CpuT.total]),
   C6_accounting_edge_cases.2.1 ⟨0, [1]⟩ ⟨0, [2]⟩ (le_refl 0)
     (List.Forall₂.cons (by norm_num) List.Forall₂.nil)⟩

/-! ## Claim C8: assert_gone's per-handle outcomes -/

/-- C8 counterexample: a normal return from the bounded wait with a null
exit code does NOT move the handle to the gone set when the follow-up
is_running() check still reports the process running — the state is
returned unchanged, refuting the claim that every normal return moves the
handle to gone. -/
theorem C8_counterexample :
    assertGone ⟨⟨[(1, .ok (some 5) 0)]⟩, fun _ _ => .exited none⟩
      ⟨1, some 5, false⟩ 1 ⟨[], []⟩ = .ok ⟨[], []⟩ := by
  rfl

theorem procWait_nonneg (env : WaitEnv) (pid : ℕ) (tmo : ℚ) (htmo : tmo ≥ 0) :
    procWait env pid tmo = .ok (env.waitFor pid tmo) := by
  unfold procWait
  rw [if_neg (not_not_intro htmo)]

theorem assertGone_neg (env : WaitEnv) (p : Process) (tmo : ℚ) (s : WPState)
    (h : ¬ tmo ≥ 0) : assertGone env p tmo s = .error .valueError := by
  unfold assertGone procWait
  rw [if_pos h]

theorem assertGone_timedOut (env : WaitEnv) (p : Process) (tmo : ℚ)
    (s : WPState) (htmo : tmo ≥ 0) (h : env.waitFor p.pid tmo = .timedOut) :
    assertGone env p tmo s = .ok s := by
  unfold assertGone
  rw [procWait_nonneg env p.pid tmo htmo, h]

theorem assertGone_exited_some (env : WaitEnv) (p : Process) (tmo : ℚ)
    (s : WPState) (c : ℤ) (htmo : tmo ≥ 0)
    (h : env.waitFor p.pid tmo = .exited (some c)) :
    assertGone env p tmo s = .ok ⟨s.gone ++ [(p, some c)], s.cbLog ++ [p]⟩ := by
  unfold assertGone
  rw [procWait_nonneg env p.pid tmo htmo, h]
  simp

theorem assertGone_exited_none_dead (env : WaitEnv) (p : Process) (tmo : ℚ)
    (s : WPState) (p' : Process) (htmo : tmo ≥ 0)
    (h : env.waitFor p.pid tmo = .exited none)
    (hrun : isRunning env.world p = .ok (p', false)) :
    assertGone env p tmo s = .ok ⟨s.gone ++ [(p', none)], s.cbLog ++ [p']⟩ := by
  unfold assertGone
  rw [procWait_nonneg env p.pid tmo htmo, h]
  simp only [Option.isSome_none, Bool.false_eq_true, if_false]
  rw [hrun]
  simp

theorem assertGone_exited_none_alive (env : WaitEnv) (p : Process) (tmo : ℚ)
    (s : WPState) (p' : Process) (htmo : tmo ≥ 0)
    (h : env.waitFor p.pid tmo = .exited none)
    (hrun : isRunning env.world p = .ok (p', true)) :
    assertGone env p tmo s = .ok s := by
  unfold assertGone
  rw [procWait_nonneg env p.pid tmo htmo, h]
  simp only [Option.isSome_none, Bool.false_eq_true, if_false]
  rw [hrun]
  simp

/-- C8 (amended): during a sweep, a TimeoutExpired from the bounded
per-handle wait is swallowed and the state is unchanged (the handle stays
alive); a normal return with a non-null exit code moves the handle to gone
with the exit code recorded and the callback invoked synchronously; a
normal return with a null exit code moves the handle to gone only when a
follow-up is_running() check reports false — when the process is still
reported running, the handle stays alive. -/
theorem C8_assert_gone (env : WaitEnv) (p : Process) (tmo : ℚ) (s : WPState)
    (htmo : tmo ≥ 0) :
    (env.waitFor p.pid tmo = .timedOut → assertGone env p tmo s = .ok s)
    ∧ (∀ c : ℤ, env.waitFor p.pid tmo = .exited (some c) →
        assertGone env p tmo s = .ok ⟨s.gone ++ [(p, some c)], s.cbLog ++ [p]⟩)
    ∧ (∀ p' : Process, env.waitFor p.pid tmo = .exited none →
        isRunning env.world p = .ok (p', false) →
        assertGone env p tmo s = .ok ⟨s.gone ++ [(p', none)], s.cbLog ++ [p']⟩)
    ∧ (∀ p' : Process, env.waitFor p.pid tmo = .exited none →
        isRunning env.world p = .ok (p', true) →
        assertGone env p tmo s = .ok s) :=
  ⟨fun h => assertGone_timedOut env p tmo s htmo h,
   fun c h => assertGone_exited_some env p tmo s c htmo h,
   fun p' h hrun => assertGone_exited_none_dead env p tmo s p' htmo h hrun,
   fun p' h hrun => assertGone_exited_none_alive env p tmo s p' htmo h hrun⟩

/-- Witness for C8 (amended): the timeout-swallowing and the
known-exit-code branches at concrete inputs. -/
theorem C8_assert_gone_witness :
    assertGone ⟨⟨[]⟩, fun _ _ => .timedOut⟩ ⟨1, some 5, false⟩ 1 ⟨[], []⟩ =
      .ok ⟨[], []⟩ ∧
    assertGone ⟨⟨[]⟩, fun _ _ => .exited (some 0)⟩ ⟨1, some 5, false⟩ 1 ⟨[], []⟩ =
      .ok ⟨[(⟨1, some 5, false⟩, some 0)], [⟨1, some 5, false⟩]⟩ :=
  ⟨(C8_assert_gone ⟨⟨[]⟩, fun _ _ => .timedOut⟩ ⟨1, some 5, false⟩ 1 ⟨[], []⟩
      (by norm_num)).1 rfl,
   (C8_assert_gone ⟨⟨[]⟩, fun _ _ => .exited (some 0)⟩ ⟨1, some 5, false⟩ 1 ⟨[], []⟩
      (by norm_num)).2.1 0 rfl⟩

theorem procEq_iff_key (p q : Process) :
    procEq p q = true ↔ procKey p = procKey q := by
  unfold procEq procKey
  simp [Prod.ext_iff]

theorem memProc_iff (l : List Process) (p : Process) :
    memProc l p = true ↔ procKey p ∈ l.map procKey := by
  unfold memProc
  rw [List.any_eq_true]
  constructor
  · rintro ⟨q, hq, he⟩
    exact List.mem_map.2 ⟨q, hq, (procEq_iff_key q p).1 he⟩
  · intro hm
    rcases List.mem_map.1 hm with ⟨q, hq, he⟩
    exact ⟨q, hq, (procEq_iff_key q p).2 he⟩

theorem dedupProcs_keys_nodup (l : List Process) :
    ((dedupProcs l).map procKey).Nodup := by
  suffices h : ∀ acc : List Process, (acc.map procKey).Nodup →
      ((l.foldl (fun acc p => if memProc acc p then acc else acc ++ [p]) acc).map
        procKey).Nodup by
    exact h [] (by simp)
  induction l with
  | nil =>
    intro acc h
    exact h
  | cons p t ih =>
    intro acc h
    rw [List.foldl_cons]
    by_cases hm : memProc acc p = true
    · rw [if_pos hm]
      exact ih acc h
    · rw [if_neg hm]
      apply ih
      rw [List.map_append]
      rw [List.nodup_append]
      refine ⟨h, List.nodup_singleton _, ?_⟩
      intro x hx hx2
      simp only [List.map_cons, List.map_nil, List.mem_singleton] at hx2
      subst hx2
      exact hm ((memProc_iff acc p).2 hx)

theorem find_mem (w : World) (pid : ℕ) (e : Entry) (h : w.find pid = some e) :
    ∃ pr ∈ w.procs, pr.2 = e := by
  unfold World.find at h
  rcases hf : w.procs.find? (fun x => x.1 == pid) with _ | pr
  · rw [hf] at h
    cases h
  · rw [hf] at h
    exact ⟨pr, List.mem_of_find?_eq_some hf, Option.some.inj h⟩

/-- Over a world with no access-denied entries, is_running never throws. -/
theorem isRunning_ok (w : World) (p : Process) (hnd : w.noDenied) :
    ∃ p' b, isRunning w p = .ok (p', b) := by
  unfold isRunning
  by_cases hg : p.gone
  · rw [if_pos hg]
    exact ⟨p, false, rfl⟩
  · rw [if_neg hg]
    rcases hc : Process.construct w p.pid with e | q
    · rcases e
      · exact ⟨_, _, rfl⟩
      · exfalso
        unfold Process.construct at hc
        rcases hf : w.find p.pid with _ | ee
        · rw [hf] at hc
          cases hc
        · rcases ee with _ | ⟨ct, pp⟩
          · rcases find_mem w p.pid .denied hf with ⟨pr, hpr, hpr2⟩
            exact hnd pr hpr hpr2
          · rw [hf] at hc
            cases hc
    · exact ⟨_, _, rfl⟩

/-- is_running only ever flips the gone flag: the identity key survives. -/
theorem isRunning_key (w : World) (p p' : Process) (b : Bool)
    (h : isRunning w p = .ok (p', b)) : procKey p' = procKey p := by
  unfold isRunning at h
  by_cases hg : p.gone
  · rw [if_pos hg] at h
    simp only [Except.ok.injEq, Prod.mk.injEq] at h
    rw [← h.1]
  · rw [if_neg hg] at h
    rcases hc : Process.construct w p.pid with e | q
    · rcases e
      · rw [hc] at h
        simp only [Except.ok.injEq, Prod.mk.injEq] at h
        rw [← h.1]
        rfl
      · rw [hc] at h
        cases h
    · rw [hc] at h
      simp only [Except.ok.injEq, Prod.mk.injEq] at h
      rw [← h.1]

/-- Over a no-denied world and a non-negative timeout, assert_gone
succeeds, and it appends at most the current handle (up to the gone-flag
mutation, which preserves the identity key) to the gone list. -/
theorem assertGone_ok (env : WaitEnv) (p : Process) (tmo : ℚ) (s : WPState)
    (htmo : tmo ≥ 0) (hnd : env.world.noDenied) :
    ∃ s2, assertGone env p tmo s = .ok s2 ∧
      (s2.gone = s.gone ∨ ∃ pr rc, s2.gone = s.gone ++ [(pr, rc)] ∧
        procKey pr = procKey p) := by
  rcases hw : env.waitFor p.pid tmo with _ | rc
  · exact ⟨s, assertGone_timedOut env p tmo s htmo hw, Or.inl rfl⟩
  · rcases rc with _ | c
    · obtain ⟨p', b, hrun⟩ := isRunning_ok env.world p hnd
      rcases b
      · refine ⟨_, assertGone_exited_none_dead env p tmo s p' htmo hw hrun, ?_⟩
        exact Or.inr ⟨p', none, rfl, isRunning_key env.world p p' false hrun⟩
      · exact ⟨s, assertGone_exited_none_alive env p tmo s p' htmo hw hrun,
          Or.inl rfl⟩
    · refine ⟨_, assertGone_exited_some env p tmo s c htmo hw, ?_⟩
      exact Or.inr ⟨p, some c, rfl, rfl⟩

theorem mem_aliveMinusGone (alive : List Process)
    (gone : List (Process × Option ℤ)) (p : Process) :
    p ∈ aliveMinusGone alive gone ↔
      p ∈ alive ∧ procKey p ∉ gone.map (fun g => procKey g.1) := by
  unfold aliveMinusGone
  rw [List.mem_filter]
  constructor
  · rintro ⟨hmem, hcond⟩
    refine ⟨hmem, ?_⟩
    intro hc
    rcases List.mem_map.1 hc with ⟨g, hg, hk⟩
    rw [Bool.not_eq_true', ← Bool.not_eq_true] at hcond
    exact hcond (List.any_eq_true.2 ⟨g, hg, (procEq_iff_key g.1 p).2 hk⟩)
  · rintro ⟨hmem, hcond⟩
    refine ⟨hmem, ?_⟩
    rw [Bool.not_eq_true', ← Bool.not_eq_true]
    intro hc
    rcases List.any_eq_true.1 hc with ⟨g, hg, hk⟩
    exact hcond (List.mem_map.2 ⟨g, hg, (procEq_iff_key g.1 p).1 hk⟩)

/-- One sweep followed by alive = alive - gone permutes the state keys:
what enters gone is exactly what leaves alive. -/
theorem step_preserves (s s2 : WPState) (alive : List Process)
    (new : List (Process × Option ℤ))
    (hnew : s2.gone = s.gone ++ new)
    (hsub : List.Sublist (new.map (fun g => procKey g.1)) (alive.map procKey))
    (hnd : (wpKeys s alive).Nodup) :
    (wpKeys s2 (aliveMinusGone alive s2.gone)).Perm (wpKeys s alive) := by
  obtain ⟨hg, ha, hdisj⟩ := List.nodup_append.1 hnd
  have hnewnd : (new.map (fun g => procKey g.1)).Nodup := ha.sublist hsub
  have hnewsub : ∀ x ∈ new.map (fun g => procKey g.1), x ∈ alive.map procKey :=
    fun x hx => hsub.subset hx
  have hg2 : s2.gone.map (fun g => procKey g.1) =
      s.gone.map (fun g => procKey g.1) ++ new.map (fun g => procKey g.1) := by
    rw [hnew, List.map_append]
  have hg2nd : (s2.gone.map (fun g => procKey g.1)).Nodup := by
    rw [hg2, List.nodup_append]
    exact ⟨hg, hnewnd, fun x hx hx2 => hdisj hx (hnewsub x hx2)⟩
  have hsubl2 : List.Sublist (aliveMinusGone alive s2.gone) alive :=
    List.filter_sublist _
  have ha2 : ((aliveMinusGone alive s2.gone).map procKey).Nodup :=
    ha.sublist (hsubl2.map _)
  have hlnd : (wpKeys s2 (aliveMinusGone alive s2.gone)).Nodup := by
    unfold wpKeys
    rw [List.nodup_append]
    refine ⟨hg2nd, ha2, ?_⟩
    intro x hx hx2
    rcases List.mem_map.1 hx2 with ⟨p, hp, hk⟩
    exact ((mem_aliveMinusGone alive s2.gone p).1 hp).2 (hk ▸ hx)
  apply List.perm_of_nodup_nodup_toFinset_eq hlnd hnd
  ext x
  simp only [List.mem_toFinset]
  unfold wpKeys
  rw [List.mem_append, List.mem_append, hg2, List.mem_append]
  constructor
  · rintro ((hx | hx) | hx)
    · exact Or.inl hx
    · exact Or.inr (hnewsub x hx)
    · rcases List.mem_map.1 hx with ⟨p, hp, hk⟩
      exact Or.inr (List.mem_map.2 ⟨p, ((mem_aliveMinusGone _ _ p).1 hp).1, hk⟩)
  · rintro (hx | hx)
    · exact Or.inl (Or.inl hx)
    · by_cases hxg : x ∈ s2.gone.map (fun g => procKey g.1)
      · rw [hg2, List.mem_append] at hxg
        exact Or.inl hxg
      · rcases List.mem_map.1 hx with ⟨p, hp, hk⟩
        refine Or.inr (List.mem_map.2 ⟨p, ?_, hk⟩)
        rw [mem_aliveMinusGone]
        exact ⟨hp, fun hc => hxg (hk ▸ hc)⟩

/-- The final zero-timeout sweep always succeeds over a no-denied world,
appending to gone only handles (up to the gone-flag mutation) drawn from
the swept list. -/
theorem sweepZero_ok (env : WaitEnv) (hnd : env.world.noDenied) :
    ∀ (l : List Process) (s : WPState), ∃ s2, sweepZero env l s = .ok s2 ∧
      ∃ new, s2.gone = s.gone ++ new ∧
        List.Sublist (new.map (fun g => procKey g.1)) (l.map procKey) := by
  intro l
  induction l with
  | nil =>
    intro s
    exact ⟨s, rfl, [], by simp, by simp⟩
  | cons p t ih =>
    intro s
    obtain ⟨s1, h1, hcase⟩ := assertGone_ok env p 0 s (le_refl 0) hnd
    obtain ⟨s2, h2, new, hnew, hsub⟩ := ih s1
    refine ⟨s2, ?_, ?_⟩
    · rw [sweepZero, h1]
      exact h2
    · rcases hcase with hc | ⟨pr, rc, hc, hk⟩
      · refine ⟨new, by rw [hnew, hc], ?_⟩
        rw [List.map_cons]
        exact hsub.cons _
      · refine ⟨(pr, rc) :: new, ?_, ?_⟩
        · rw [hnew, hc]
          simp
        · rw [List.map_cons, List.map_cons]
          simp only
          rw [hk]
          exact hsub.cons₂ _

/-- The one-step unfolding of a timed sweep on a nonempty list, stated by
hand because it is definitional. -/
theorem sweepTimed_cons_eq (env : WaitEnv) (timer : ℕ → ℚ) (deadline : ℚ)
    (aliveLen : ℕ) (p : Process) (rest : List Process) (s : WPState) (ti : ℕ)
    (tmo : ℚ) :
    sweepTimed env timer deadline aliveLen (p :: rest) s ti tmo =
    (if min (deadline - timer ti) (maxTimeout aliveLen s.gone.length) ≤ 0 then
      .ok (s, ti + 1, min (deadline - timer ti) (maxTimeout aliveLen s.gone.length))
    else
      match assertGone env p
          (min (deadline - timer ti) (maxTimeout aliveLen s.gone.length)) s with
      | .error e => .error e
      | .ok s2 =>
        sweepTimed env timer deadline aliveLen rest s2 (ti + 1)
          (min (deadline - timer ti) (maxTimeout aliveLen s.gone.length))) := rfl

/-- A timed sweep always succeeds over a no-denied world (the per-handle
timeout is checked positive before each wait), appending to gone only
handles drawn from the swept list. -/
theorem sweepTimed_ok (env : WaitEnv) (timer : ℕ → ℚ) (deadline : ℚ)
    (aliveLen : ℕ) (hnd : env.world.noDenied) :
    ∀ (l : List Process) (s : WPState) (ti : ℕ) (tmo : ℚ),
      ∃ s2 ti2 tmo2,
        sweepTimed env timer deadline aliveLen l s ti tmo = .ok (s2, ti2, tmo2) ∧
        ∃ new, s2.gone = s.gone ++ new ∧
          List.Sublist (new.map (fun g => procKey g.1)) (l.map procKey) := by
  intro l
  induction l with
  | nil =>
    intro s ti tmo
    exact ⟨s, ti, tmo, rfl, [], by simp, by simp⟩
  | cons p t ih =>
    intro s ti tmo
    rw [sweepTimed_cons_eq]
    by_cases hle : min (deadline - timer ti) (maxTimeout aliveLen s.gone.length) ≤ 0
    · rw [if_pos hle]
      exact ⟨s, ti + 1, _, rfl, [], by simp, by simp⟩
    · rw [if_neg hle]
      push_neg at hle
      obtain ⟨s1, h1, hcase⟩ := assertGone_ok env p
        (min (deadline - timer ti) (maxTimeout aliveLen s.gone.length)) s
        (le_of_lt hle) hnd
      rw [h1]
      obtain ⟨s2, ti2, tmo2, h2, new, hnew, hsub⟩ := ih s1 (ti + 1)
        (min (deadline - timer ti) (maxTimeout aliveLen s.gone.length))
      refine ⟨s2, ti2, tmo2, h2, ?_⟩
      rcases hcase with hc | ⟨pr, rc, hc, hk⟩
      · refine ⟨new, by rw [hnew, hc], ?_⟩
        rw [List.map_cons]
        exact hsub.cons _
      · refine ⟨(pr, rc) :: new, ?_, ?_⟩
        · rw [hnew, hc]
          simp
        · rw [List.map_cons, List.map_cons]
          simp only
          rw [hk]
          exact hsub.cons₂ _

/-- The fuel-bounded main loop, in timed mode over a no-denied world,
always returns and permutes the state keys. -/
theorem wpLoop_timed_ok (env : WaitEnv) (timer : ℕ → ℚ) (deadline : ℚ)
    (hnd : env.world.noDenied) :
    ∀ (fuel : ℕ) (t : ℚ) (alive : List Process) (s : WPState) (ti : ℕ),
      (wpKeys s alive).Nodup →
      ∃ alive2 s2 ti2,
        wpLoop env timer deadline fuel (some t) alive s ti = .ok (alive2, s2, ti2) ∧
        (wpKeys s2 alive2).Perm (wpKeys s alive) := by
  intro fuel
  induction fuel with
  | zero =>
    intro t alive s ti h
    exact ⟨alive, s, ti, rfl, List.Perm.refl _⟩
  | succ fuel ih =>
    intro t alive s ti h
    rw [wpLoop]
    by_cases he : alive.isEmpty
    · rw [if_pos he]
      exact ⟨alive, s, ti, rfl, List.Perm.refl _⟩
    · rw [if_neg he]
      by_cases ht : t ≤ 0
      · rw [if_pos ht]
        exact ⟨alive, s, ti, rfl, List.Perm.refl _⟩
      · rw [if_neg ht]
        obtain ⟨s1, ti1, t1, h1, new, hnew, hsub⟩ :=
          sweepTimed_ok env timer deadline alive.length hnd alive s ti t
        rw [h1]
        have hperm := step_preserves s s1 alive new hnew hsub h
        have hnd1 : (wpKeys s1 (aliveMinusGone alive s1.gone)).Nodup :=
          hperm.nodup_iff.2 h
        obtain ⟨alive2, s2, ti2, h2, hperm2⟩ :=
          ih t1 (aliveMinusGone alive s1.gone) s1 ti1 hnd1
        exact ⟨alive2, s2, ti2, h2, hperm2.trans hperm⟩

/-- Reading the partition facts out of the key permutation. -/
theorem extract_partition (g : List (Process × Option ℤ)) (a base : List Process)
    (hperm : (g.map (fun e => procKey e.1) ++ a.map procKey).Perm
      (base.map procKey)) :
    g.length + a.length = base.length ∧
    (∀ e ∈ g, procKey e.1 ∈ base.map procKey) ∧
    (∀ p ∈ a, procKey p ∈ base.map procKey) := by
  refine ⟨?_, ?_, ?_⟩
  · have hl := hperm.length_eq
    simpa using hl
  · intro e he
    exact hperm.subset (List.mem_append.2 (Or.inl (List.mem_map.2 ⟨e, he, rfl⟩)))
  · intro p hp
    exact hperm.subset (List.mem_append.2 (Or.inr (List.mem_map.2 ⟨p, hp, rfl⟩)))

/-- The one-step unfolding of a deadline-free sweep on a nonempty list,
stated by hand because it is definitional. -/
theorem sweepNone_cons_eq (env : WaitEnv) (aliveLen : ℕ) (p : Process)
    (rest : List Process) (s : WPState) :
    sweepNone env aliveLen (p :: rest) s =
    (match assertGone env p (maxTimeout aliveLen s.gone.length) s with
    | .error e => .error e
    | .ok s2 => sweepNone env aliveLen rest s2) := rfl

theorem sweepNone_cons_ok (env : WaitEnv) (aliveLen : ℕ) (p : Process)
    (rest : List Process) (s s1 : WPState)
    (h : assertGone env p (maxTimeout aliveLen s.gone.length) s = .ok s1) :
    sweepNone env aliveLen (p :: rest) s = sweepNone env aliveLen rest s1 := by
  rw [sweepNone_cons_eq, h]

theorem sweepNone_cons_err (env : WaitEnv) (aliveLen : ℕ) (p : Process)
    (rest : List Process) (s : WPState) (e : WErr)
    (h : assertGone env p (maxTimeout aliveLen s.gone.length) s = .error e) :
    sweepNone env aliveLen (p :: rest) s = .error e := by
  rw [sweepNone_cons_eq, h]

/-- The one-step unfolding of the deadline-free main loop, stated by hand
because it is definitional. -/
theorem wpLoop_none_eq (env : WaitEnv) (timer : ℕ → ℚ) (deadline : ℚ)
    (fuel : ℕ) (alive : List Process) (s : WPState) (ti : ℕ) :
    wpLoop env timer deadline (fuel + 1) none alive s ti =
    (if alive.isEmpty then .ok (alive, s, ti)
    else match sweepNone env alive.length alive s with
      | .error e => .error e
      | .ok s2 =>
        wpLoop env timer deadline fuel none (aliveMinusGone alive s2.gone) s2
          ti) := rfl

theorem wpLoop_none_ok (env : WaitEnv) (timer : ℕ → ℚ) (deadline : ℚ)
    (fuel : ℕ) (alive : List Process) (s : WPState) (ti : ℕ) (s2 : WPState)
    (hne : ¬ (alive.isEmpty = true))
    (h : sweepNone env alive.length alive s = .ok s2) :
    wpLoop env timer deadline (fuel + 1) none alive s ti =
    wpLoop env timer deadline fuel none (aliveMinusGone alive s2.gone) s2 ti := by
  rw [wpLoop_none_eq, if_neg hne, h]

theorem wpLoop_none_err (env : WaitEnv) (timer : ℕ → ℚ) (deadline : ℚ)
    (fuel : ℕ) (alive : List Process) (s : WPState) (ti : ℕ) (e : WErr)
    (hne : ¬ (alive.isEmpty = true))
    (h : sweepNone env alive.length alive s = .error e) :
    wpLoop env timer deadline (fuel + 1) none alive s ti = .error e := by
  rw [wpLoop_none_eq, if_neg hne, h]

/-- A main-loop pass whose threaded timeout is already non-positive halts
at once with the state unchanged, for any fuel. -/
theorem wpLoop_halt (env : WaitEnv) (timer : ℕ → ℚ) (deadline : ℚ)
    (fuel : ℕ) (t : ℚ) (alive : List Process) (s : WPState) (ti : ℕ)
    (ht : t ≤ 0) :
    wpLoop env timer deadline fuel (some t) alive s ti = .ok (alive, s, ti) := by
  cases fuel with
  | zero => rfl
  | succ f =>
    rw [wpLoop]
    by_cases hA : alive.isEmpty = true
    · rw [if_pos hA]
    · rw [if_neg hA]
      exact if_pos ht

/-- The failing run: with three distinct handles and no deadline, after
pids 10 and 20 exit during the first sweep and pid 30 survives it, the
second sweep computes max_timeout = 1/(1-2) = -1 and the unguarded
negative timeout makes Process.wait raise ValueError, which wait_procs
does not catch: no partition is returned, for any remaining fuel. -/
theorem waitProcs_crash (fuel : ℕ) :
    waitProcs envC9 (fun _ => 0) procsC9 none (fuel + 2) =
      .error .valueError := by
  have e1 : assertGone envC9 ⟨10, some 1, false⟩ (maxTimeout 3 0) ⟨[], []⟩ =
      .ok ⟨[(⟨10, some 1, false⟩, some 0)], [⟨10, some 1, false⟩]⟩ := by
    rw [assertGone_exited_some envC9 ⟨10, some 1, false⟩ (maxTimeout 3 0)
      ⟨[], []⟩ 0 (by norm_num [maxTimeout]) rfl]
    rfl
  have e2 : assertGone envC9 ⟨20, some 1, false⟩ (maxTimeout 3 1)
      ⟨[(⟨10, some 1, false⟩, some 0)], [⟨10, some 1, false⟩]⟩ =
      .ok ⟨[(⟨10, some 1, false⟩, some 0), (⟨20, some 1, false⟩, some 0)],
        [⟨10, some 1, false⟩, ⟨20, some 1, false⟩]⟩ := by
    rw [assertGone_exited_some envC9 ⟨20, some 1, false⟩ (maxTimeout 3 1)
      ⟨[(⟨10, some 1, false⟩, some 0)], [⟨10, some 1, false⟩]⟩ 0
      (by norm_num [maxTimeout]) rfl]
    rfl
  have e3 : assertGone envC9 ⟨30, some 1, false⟩ (maxTimeout 3 2)
      ⟨[(⟨10, some 1, false⟩, some 0), (⟨20, some 1, false⟩, some 0)],
        [⟨10, some 1, false⟩, ⟨20, some 1, false⟩]⟩ =
      .ok ⟨[(⟨10, some 1, false⟩, some 0), (⟨20, some 1, false⟩, some 0)],
        [⟨10, some 1, false⟩, ⟨20, some 1, false⟩]⟩ :=
    assertGone_timedOut envC9 ⟨30, some 1, false⟩ (maxTimeout 3 2) _
      (by norm_num [maxTimeout]) rfl
  have hsw1 : sweepNone envC9 3 procsC9 ⟨[], []⟩ =
      .ok ⟨[(⟨10, some 1, false⟩, some 0), (⟨20, some 1, false⟩, some 0)],
        [⟨10, some 1, false⟩, ⟨20, some 1, false⟩]⟩ := by
    show sweepNone envC9 3
      [⟨10, some 1, false⟩, ⟨20, some 1, false⟩, ⟨30, some 1, false⟩]
      ⟨[], []⟩ = _
    rw [sweepNone_cons_ok envC9 3 _ _ ⟨[], []⟩ _ e1,
      sweepNone_cons_ok envC9 3 _ _
        ⟨[(⟨10, some 1, false⟩, some 0)], [⟨10, some 1, false⟩]⟩ _ e2,
      sweepNone_cons_ok envC9 3 _ _
        ⟨[(⟨10, some 1, false⟩, some 0), (⟨20, some 1, false⟩, some 0)],
          [⟨10, some 1, false⟩, ⟨20, some 1, false⟩]⟩ _ e3]
    rfl
  have e4 : assertGone envC9 ⟨30, some 1, false⟩ (maxTimeout 1 2)
      ⟨[(⟨10, some 1, false⟩, some 0), (⟨20, some 1, false⟩, some 0)],
        [⟨10, some 1, false⟩, ⟨20, some 1, false⟩]⟩ = .error .valueError :=
    assertGone_neg envC9 ⟨30, some 1, false⟩ (maxTimeout 1 2) _
      (by norm_num [maxTimeout])
  have hsw2 : sweepNone envC9 1 [⟨30, some 1, false⟩]
      ⟨[(⟨10, some 1, false⟩, some 0), (⟨20, some 1, false⟩, some 0)],
        [⟨10, some 1, false⟩, ⟨20, some 1, false⟩]⟩ = .error .valueError :=
    sweepNone_cons_err envC9 1 _ _
      ⟨[(⟨10, some 1, false⟩, some 0), (⟨20, some 1, false⟩, some 0)],
        [⟨10, some 1, false⟩, ⟨20, some 1, false⟩]⟩ _ e4
  have hwl : ∀ deadline : ℚ,
      wpLoop envC9 (fun _ => 0) deadline (fuel + 2) none procsC9 ⟨[], []⟩ 1 =
      .error .valueError := by
    intro deadline
    rw [wpLoop_none_ok envC9 (fun _ => 0) deadline (fuel + 1) procsC9 ⟨[], []⟩ 1
      _ (by decide) hsw1]
    rw [show aliveMinusGone procsC9
      (WPState.gone ⟨[(⟨10, some 1, false⟩, some 0), (⟨20, some 1, false⟩, some 0)],
        [⟨10, some 1, false⟩, ⟨20, some 1, false⟩]⟩) = [⟨30, some 1, false⟩]
      from by decide]
    exact wpLoop_none_err envC9 (fun _ => 0) deadline fuel [⟨30, some 1, false⟩]
      _ 1 .valueError (by decide) hsw2
  unfold waitProcs
  rw [if_neg (fun hc => Bool.noConfusion hc.1)]
  rw [show dedupProcs procsC9 = procsC9 from by decide]
  rw [hwl _]

/-- C9: the claimed wait_procs invariant fails — part 1 exhibits a run
(three distinct handles, no deadline: pids 10 and 20 exit in the first
sweep, pid 30 survives it) on which wait_procs raises an uncaught
ValueError instead of returning any (gone, alive) partition, because the
second sweep computes max_timeout = 1.0/(len(alive)-len(gone)) =
1/(1-2) = -1 and Process.wait rejects the negative timeout; part 2
confirms the timeout-0 clause: the function returns immediately after
exactly one best-effort zero-timeout sweep over the deduplicated input;
part 3 confirms the partition clause on runs that do return: with a
finite timeout, a constructible world and a non-negative deadline, the
result is a partition — gone and alive cardinalities sum to the
deduplicated input's, both sides drawing their identity keys from the
input (members of gone carry their recorded retcode field by
construction). -/
theorem C9_wait_procs :
    (∀ fuel : ℕ,
      waitProcs envC9 (fun _ => 0) procsC9 none (fuel + 2) =
        .error .valueError) ∧
    (∀ (env : WaitEnv) (timer : ℕ → ℚ) (procs : List Process) (fuel : ℕ),
      waitProcs env timer procs (some 0) fuel =
        if (dedupProcs procs).isEmpty then .ok ([], dedupProcs procs, [])
        else match sweepZero env (dedupProcs procs) ⟨[], []⟩ with
          | .error e => .error e
          | .ok s2 =>
            .ok (s2.gone, aliveMinusGone (dedupProcs procs) s2.gone,
              s2.cbLog)) ∧
    (∀ (env : WaitEnv) (timer : ℕ → ℚ) (procs : List Process) (t : ℚ)
      (fuel : ℕ), env.world.noDenied → 0 ≤ t →
      ∃ gone alive cb,
        waitProcs env timer procs (some t) fuel = .ok (gone, alive, cb) ∧
        gone.length + alive.length = (dedupProcs procs).length ∧
        (∀ e ∈ gone, procKey e.1 ∈ (dedupProcs procs).map procKey) ∧
        (∀ p ∈ alive, procKey p ∈ (dedupProcs procs).map procKey)) := by
  refine ⟨waitProcs_crash, ?_, ?_⟩
  · intro env timer procs fuel
    unfold waitProcs
    rw [if_neg (fun hc => hc.2 (le_refl 0))]
    rw [wpLoop_halt env timer _ fuel 0 (dedupProcs procs) ⟨[], []⟩ 1
      (le_refl 0)]
  · intro env timer procs t fuel hnd ht
    obtain ⟨alive2, s2, ti2, hwl, hperm⟩ :=
      wpLoop_timed_ok env timer (timer 0 + Option.getD (some t) 0) hnd fuel t
        (dedupProcs procs) ⟨[], []⟩ 1 (dedupProcs_keys_nodup procs)
    have hnodup2 : (wpKeys s2 alive2).Nodup :=
      hperm.nodup_iff.mpr (dedupProcs_keys_nodup procs)
    by_cases hA : alive2.isEmpty = true
    · refine ⟨s2.gone, alive2, s2.cbLog, ?_, ?_⟩
      · unfold waitProcs
        rw [if_neg (fun hc => hc.2 ht), hwl]
        exact if_pos hA
      · exact extract_partition s2.gone alive2 (dedupProcs procs) hperm
    · obtain ⟨s3, hsz, new, hnew, hsub⟩ := sweepZero_ok env hnd alive2 s2
      have hperm3 :=
        (step_preserves s2 s3 alive2 new hnew hsub hnodup2).trans hperm
      refine ⟨s3.gone, aliveMinusGone alive2 s3.gone, s3.cbLog, ?_, ?_⟩
      · unfold waitProcs
        rw [if_neg (fun hc => hc.2 ht), hwl]
        refine (if_neg hA).trans ?_
        rw [hsz]
      · exact extract_partition s3.gone (aliveMinusGone alive2 s3.gone)
          (dedupProcs procs) hperm3

/-- Witness for C9: the hypotheses of the partition clause discharged at
a concrete constructible world and deadline 1, alongside the concrete
crashing run and a concrete timeout-0 call. -/
theorem C9_wait_procs_witness :
    waitProcs envC9 (fun _ => 0) procsC9 none 2 = .error .valueError ∧
    (waitProcs envC9 (fun _ => 0) procsC9 (some 0) 5 =
      if (dedupProcs procsC9).isEmpty then .ok ([], dedupProcs procsC9, [])
      else match sweepZero envC9 (dedupProcs procsC9) ⟨[], []⟩ with
        | .error e => .error e
        | .ok s2 =>
          .ok (s2.gone, aliveMinusGone (dedupProcs procsC9) s2.gone,
            s2.cbLog)) ∧
    (World.noDenied ⟨[]⟩ ∧ (0 : ℚ) ≤ 1 ∧
      ∃ gone alive cb,
        waitProcs ⟨⟨[]⟩, fun _ _ => .timedOut⟩ (fun _ => 0)
            [⟨1, some 0, false⟩] (some 1) 1 = .ok (gone, alive, cb) ∧
        gone.length + alive.length =
          (dedupProcs [⟨1, some 0, false⟩]).length ∧
        (∀ e ∈ gone,
          procKey e.1 ∈ (dedupProcs [⟨1, some 0, false⟩]).map procKey) ∧
        (∀ p ∈ alive,
          procKey p ∈ (dedupProcs [⟨1, some 0, false⟩]).map procKey)) :=
  ⟨C9_wait_procs.1 0,
   C9_wait_procs.2.1 envC9 (fun _ => 0) procsC9 5,
   by simp [World.noDenied], zero_le_one,
   C9_wait_procs.2.2 ⟨⟨[]⟩, fun _ _ => .timedOut⟩ (fun _ => 0)
     [⟨1, some 0, false⟩] 1 1 (by simp [World.noDenied]) zero_le_one⟩

/-- Witness for C4: a vanished pid is evicted and skipped, and a cached
handle for an access-denied pid is yielded stale. -/
theorem C4_per_pid_failure_isolation_witness :
    iterStep ⟨[(2, Entry.denied)]⟩ 1 (some ⟨1, some 0, false⟩) [] = ([], rRemove [] 1)
    ∧ iterStep ⟨[(2, Entry.denied)]⟩ 2 (some ⟨2, some 0, false⟩) [] =
      ([some ⟨2, some 0, false⟩], []) :=
  ⟨C4_per_pid_failure_isolation.2.1 ⟨[(2, Entry.denied)]⟩ 1 (some ⟨1, some 0, false⟩) []
      (by decide),
   C4_per_pid_failure_isolation.2.2 ⟨[(2, Entry.denied)]⟩ 2 ⟨2, some 0, false⟩ []
      (by decide)⟩

end Psutil

